import Mathlib

/-!
Verification development for the `app_memo` sketching engine.

The definitions below are shallow embeddings of the TypeScript sources:

* `src/utils/geometry.ts` — the element model, `getBounds`, `distance`,
  `recognizeShape`;
* `src/utils/quadtree.ts` — the `Quadtree` spatial index;
* `src/components/Editor/MemoEditor.tsx` — hit testing, eraser commit,
  undo, selection transforms and the pinch pan/zoom math.

Numeric values are embedded as elements of a linear ordered field
(instantiated at `ℚ` for the purely arithmetic code and at `ℝ` where the
source takes square roots or trigonometric functions).
-/

namespace AppMemo

/-- World-space coordinate (`geometry.ts`: `Point`). -/
structure Pt (α : Type) where
  x : α
  y : α
deriving DecidableEq

/-- Axis-aligned rectangle (`geometry.ts`: `Rectangle`). -/
structure Rect (α : Type) where
  x : α
  y : α
  width : α
  height : α
deriving DecidableEq

/-- Drawing element (`geometry.ts`: `DrawingElement`), the tagged union of
`Stroke`, `Shape` (whose `params` payload is flattened into constructor
fields for the `line` / `rect` / `circle` discriminants) and `TextElement`. -/
inductive DrawingElement (α : Type) where
  | stroke (points : List (Pt α)) (color : String) (width : α) (id : String) (link : Option String)
  | line (start stop : Pt α) (color : String) (width : α) (id : String) (link : Option String)
  | rect (x y w h : α) (color : String) (width : α) (id : String) (link : Option String)
  | circle (x y radius : α) (color : String) (width : α) (id : String) (link : Option String)
  | text (x y : α) (content : String) (fontSize : α) (color : String) (id : String) (link : Option String)
deriving DecidableEq

/-- The stable identifier carried by every element variant. -/
def DrawingElement.elemId {α : Type} : DrawingElement α → String
  | .stroke _ _ _ i _ => i
  | .line _ _ _ _ i _ => i
  | .rect _ _ _ _ _ _ i _ => i
  | .circle _ _ _ _ _ i _ => i
  | .text _ _ _ _ _ i _ => i

variable {α : Type} [LinearOrderedField α]

/-- Embedding of `geometry.ts` `getBounds`.  For an empty stroke the source returns the
zero rectangle before its min/max loop runs; for a nonempty stroke the
source folds min/max over all points starting from `±Infinity`, which for a
nonempty list equals folding from the first point. -/
def getBounds : DrawingElement α → Rect α
  | .stroke points _ width _ _ =>
    match points with
    | [] => ⟨0, 0, 0, 0⟩
    | p :: rest =>
      let minX := rest.foldl (fun m q => min m q.x) p.x
      let maxX := rest.foldl (fun m q => max m q.x) p.x
      let minY := rest.foldl (fun m q => min m q.y) p.y
      let maxY := rest.foldl (fun m q => max m q.y) p.y
      let padding := width / 2
      ⟨minX - padding, minY - padding, maxX - minX + width, maxY - minY + width⟩
  | .line a b _ width _ _ =>
    let minX := min a.x b.x
    let maxX := max a.x b.x
    let minY := min a.y b.y
    let maxY := max a.y b.y
    let padding := width / 2
    ⟨minX - padding, minY - padding, maxX - minX + width, maxY - minY + width⟩
  | .rect x y w h _ width _ _ =>
    let padding := width / 2
    ⟨x - padding, y - padding, w + width, h + width⟩
  | .circle x y radius _ width _ _ =>
    let padding := width / 2
    let size := (radius + padding) * 2
    ⟨x - radius - padding, y - radius - padding, size, size⟩
  | .text x y content fontSize _ _ _ =>
    let approximateWidth := (content.length : α) * (fontSize * (6 / 10))
    let approximateHeight := fontSize * (12 / 10)
    ⟨x, y - fontSize, approximateWidth, approximateHeight⟩

/-- Embedding of `quadtree.ts` `Quadtree.intersects` (closed-box overlap test). -/
def intersects (a b : Rect α) : Bool :=
  decide (¬ (a.x > b.x + b.width ∨ a.x + a.width < b.x ∨
             a.y > b.y + b.height ∨ a.y + a.height < b.y))

/-- Embedding of `quadtree.ts` `Quadtree`.  `leaf` is an undivided node
(`divided === false`, empty `children`); `divided` carries the four children
the source pushes in `subdivide` (always exactly four, in the order NW, NE,
SW, SE).  `capacity`, `level` and `maxLevels` are configuration fixed by the
constructor and are threaded through the operations as explicit arguments. -/
inductive Quadtree (α : Type) where
  | leaf (bounds : Rect α) (elements : List (DrawingElement α))
  | divided (bounds : Rect α) (elements : List (DrawingElement α))
      (c1 c2 c3 c4 : Quadtree α)
deriving DecidableEq

/-- The node's region (`this.bounds`). -/
def Quadtree.qbounds : Quadtree α → Rect α
  | .leaf b _ => b
  | .divided b _ _ _ _ _ => b

/-- First quadrant created by `subdivide`: `{x, y, w/2, h/2}`. -/
def quadNW (b : Rect α) : Rect α := ⟨b.x, b.y, b.width / 2, b.height / 2⟩

/-- Second quadrant created by `subdivide`: `{x + w/2, y, w/2, h/2}`. -/
def quadNE (b : Rect α) : Rect α := ⟨b.x + b.width / 2, b.y, b.width / 2, b.height / 2⟩

/-- Third quadrant created by `subdivide`: `{x, y + h/2, w/2, h/2}`. -/
def quadSW (b : Rect α) : Rect α := ⟨b.x, b.y + b.height / 2, b.width / 2, b.height / 2⟩

/-- Fourth quadrant created by `subdivide`: `{x + w/2, y + h/2, w/2, h/2}`. -/
def quadSE (b : Rect α) : Rect α := ⟨b.x + b.width / 2, b.y + b.height / 2, b.width / 2, b.height / 2⟩

mutual

/-- Embedding of `quadtree.ts` `Quadtree.insert`, with `subdivide` inlined at the
first-subdivision branch: reject if the element's bounds miss the node
region; store in the own list while below capacity or at max depth;
otherwise subdivide (once), redistribute the own list into the fresh
children, and offer the element to every child, succeeding if any child
accepted it. -/
def Quadtree.insert (cap maxL lvl : ℕ) :
    Quadtree α → DrawingElement α → Quadtree α × Bool
  | .leaf b elems, el =>
    if intersects b (getBounds el) then
      if h : elems.length < cap ∨ maxL ≤ lvl then
        (.leaf b (elems ++ [el]), true)
      else
        let cs := Quadtree.redistribute cap maxL (lvl + 1)
          (.leaf (quadNW b) []) (.leaf (quadNE b) [])
          (.leaf (quadSW b) []) (.leaf (quadSE b) []) elems
        let r1 := Quadtree.insert cap maxL (lvl + 1) cs.1 el
        let r2 := Quadtree.insert cap maxL (lvl + 1) cs.2.1 el
        let r3 := Quadtree.insert cap maxL (lvl + 1) cs.2.2.1 el
        let r4 := Quadtree.insert cap maxL (lvl + 1) cs.2.2.2 el
        (.divided b [] r1.1 r2.1 r3.1 r4.1, r1.2 || r2.2 || r3.2 || r4.2)
    else (.leaf b elems, false)
  | .divided b elems c1 c2 c3 c4, el =>
    if intersects b (getBounds el) then
      if h : elems.length < cap ∨ maxL ≤ lvl then
        (.divided b (elems ++ [el]) c1 c2 c3 c4, true)
      else
        let r1 := Quadtree.insert cap maxL (lvl + 1) c1 el
        let r2 := Quadtree.insert cap maxL (lvl + 1) c2 el
        let r3 := Quadtree.insert cap maxL (lvl + 1) c3 el
        let r4 := Quadtree.insert cap maxL (lvl + 1) c4 el
        (.divided b elems r1.1 r2.1 r3.1 r4.1, r1.2 || r2.2 || r3.2 || r4.2)
    else (.divided b elems c1 c2 c3 c4, false)
termination_by _t _el => (maxL - lvl, 0)

/-- The redistribution loop of `quadtree.ts` `Quadtree.subdivide`: each
element of the node's own list is offered to each of the four fresh
children via `insert` (an element landing in no child is silently
dropped, as in the source). -/
def Quadtree.redistribute (cap maxL clvl : ℕ) (c1 c2 c3 c4 : Quadtree α) :
    List (DrawingElement α) →
      Quadtree α × Quadtree α × Quadtree α × Quadtree α
  | [] => (c1, c2, c3, c4)
  | el :: rest =>
    Quadtree.redistribute cap maxL clvl
      (Quadtree.insert cap maxL clvl c1 el).1
      (Quadtree.insert cap maxL clvl c2 el).1
      (Quadtree.insert cap maxL clvl c3 el).1
      (Quadtree.insert cap maxL clvl c4 el).1 rest
termination_by els => (maxL - clvl, els.length + 1)

end

/-- A `Set.add`-style accumulator step used to model the deduplicating
`Set<DrawingElement>` of `query` (insertion-ordered). -/
def listAdd {β : Type} [DecidableEq β] (acc : List β) (x : β) : List β :=
  if x ∈ acc then acc else acc ++ [x]

/-- Body of the `for (const element of this.elements)` loop of `query`: add
the element to the accumulated set when its bounds intersect the range. -/
def queryStep [DecidableEq α] (range : Rect α)
    (acc : List (DrawingElement α)) (el : DrawingElement α) :
    List (DrawingElement α) :=
  if intersects (getBounds el) range then listAdd acc el else acc

/-- Embedding of `quadtree.ts` `Quadtree.query` with its `found` accumulator. -/
def Quadtree.query [DecidableEq α] :
    Quadtree α → Rect α → List (DrawingElement α) → List (DrawingElement α)
  | .leaf b elems, range, found =>
    if intersects b range then elems.foldl (queryStep range) found
    else found
  | .divided b elems c1 c2 c3 c4, range, found =>
    if intersects b range then
      let f0 := elems.foldl (queryStep range) found
      Quadtree.query c4 range
        (Quadtree.query c3 range (Quadtree.query c2 range (Quadtree.query c1 range f0)))
    else found

/-- The logical plane of the editor
(`MemoEditor.tsx`: `new Quadtree({x: 0, y: 0, width: 20000, height: 20000})`). -/
def appRect : Rect ℚ := ⟨0, 0, 20000, 20000⟩

/-- Embedding of the `MemoEditor.tsx` quadtree rebuild: a fresh tree over the logical plane
(`clear()` amounts to starting from this fresh leaf) into which every
element is inserted in order with the default capacity 4 and max depth 10. -/
def buildTree (E : List (DrawingElement ℚ)) : Quadtree ℚ :=
  E.foldl (fun t el => (Quadtree.insert 4 10 0 t el).1) (.leaf appRect [])

/-! ### Predicates used by the quadtree development -/

/-- A point lying in a closed box. -/
def pointIn (p : Pt α) (r : Rect α) : Prop :=
  r.x ≤ p.x ∧ p.x ≤ r.x + r.width ∧ r.y ≤ p.y ∧ p.y ≤ r.y + r.height

/-- A box with nonnegative extents. -/
def rectNonneg (r : Rect α) : Prop := 0 ≤ r.width ∧ 0 ≤ r.height

/-! ### Structural invariants of the index -/

/-- Well-formedness: positive extents, children regions are exactly the four
quadrants (which is how `subdivide` creates them). -/
def qtWF : Quadtree α → Prop
  | .leaf b _ => 0 < b.width ∧ 0 < b.height
  | .divided b _ c1 c2 c3 c4 =>
      0 < b.width ∧ 0 < b.height ∧
      c1.qbounds = quadNW b ∧ c2.qbounds = quadNE b ∧
      c3.qbounds = quadSW b ∧ c4.qbounds = quadSE b ∧
      qtWF c1 ∧ qtWF c2 ∧ qtWF c3 ∧ qtWF c4

/-- The element is stored in this subtree in a query-reachable way: either in
the node's own list, or (recursively) in every child whose region its bounds
intersect — which is exactly where `insert` puts it. -/
def storedIn (el : DrawingElement α) : Quadtree α → Prop
  | .leaf _ elems => el ∈ elems
  | .divided _ elems c1 c2 c3 c4 =>
      el ∈ elems ∨
      ((intersects c1.qbounds (getBounds el) = true → storedIn el c1) ∧
       (intersects c2.qbounds (getBounds el) = true → storedIn el c2) ∧
       (intersects c3.qbounds (getBounds el) = true → storedIn el c3) ∧
       (intersects c4.qbounds (getBounds el) = true → storedIn el c4))

/-- Some node of the subtree holds this element in its own list. -/
def inTree (x : DrawingElement α) : Quadtree α → Prop
  | .leaf _ elems => x ∈ elems
  | .divided _ elems c1 c2 c3 c4 =>
      x ∈ elems ∨ inTree x c1 ∨ inTree x c2 ∨ inTree x c3 ∨ inTree x c4

/-! ### Claim C3: viewport pinch pan/zoom -/

/-- Viewport transform (`MemoEditor.tsx` `transform` state `{x, y, scale}`);
the affine map is `screen = world * scale + offset`. -/
structure Transform where
  x : ℚ
  y : ℚ
  scale : ℚ
deriving DecidableEq

/-- Embedding of `MemoEditor.tsx` `getLocalPoint`: screen to world,
`world = (screen - offset) / scale`. -/
def toWorld (t : Transform) (p : Pt ℚ) : Pt ℚ :=
  ⟨(p.x - t.x) / t.scale, (p.y - t.y) / t.scale⟩

/-- The world-to-screen map applied by `renderCanvas` through
`ctx.setTransform(scale, 0, 0, scale, x, y)`. -/
def toScreen (t : Transform) (p : Pt ℚ) : Pt ℚ :=
  ⟨p.x * t.scale + t.x, p.y * t.scale + t.y⟩

/-- The pinch pan/zoom branch of `onPointerMove` (`MemoEditor.tsx`): the new
scale is the pointer-distance ratio times the initial scale, clamped to
`[0.1, 5]`; the new offset keeps the world point that was under the initial
pinch center under the new center, and is then clamped against the
`20000 x 20000` logical canvas using the container's client size `cw x ch`. -/
def pinchMove (initialPinchDist initialScale : ℚ)
    (initialCenter initialTranslate : Pt ℚ)
    (newDist : ℚ) (newCenter : Pt ℚ) (cw ch : ℚ) : Transform :=
  let scaleFactor := newDist / initialPinchDist
  let newScale := min (max (initialScale * scaleFactor) (1 / 10)) 5
  let pWorldX := (initialCenter.x - initialTranslate.x) / initialScale
  let pWorldY := (initialCenter.y - initialTranslate.y) / initialScale
  let nextX := newCenter.x - pWorldX * newScale
  let nextY := newCenter.y - pWorldY * newScale
  let contentW := 20000 * newScale
  let contentH := 20000 * newScale
  let minX := cw - contentW
  let minY := ch - contentH
  let nextX' := if minX < 0 then max minX (min nextX 0) else max 0 (min nextX minX)
  let nextY' := if minY < 0 then max minY (min nextY 0) else max 0 (min nextY minY)
  ⟨nextX', nextY', newScale⟩

/-! ### Claim C10: mode changes clear the selection -/

/-- The editor's user-selectable mode (`MemoEditor.tsx` `mode` state). -/
inductive Mode where
  | text
  | pen
  | eraser
  | view
  | select
deriving DecidableEq

/-- The slice of editor state governed by the mode-change effect: the mode
and the selected-identifier set (`selectedIds`, a `Set<string>` modelled as a
list of identifiers). -/
structure SelectionState where
  mode : Mode
  selectedIds : List String
deriving DecidableEq

/-- A mode change together with the `useEffect(..., [mode])` of
`MemoEditor.tsx` that runs on it: when the new mode is not `select`, the
selection is reset to the empty set. -/
def applyModeChange (s : SelectionState) (m : Mode) : SelectionState :=
  ⟨m, if m ≠ Mode.select then [] else s.selectedIds⟩

/-! ### Claim C6: resize never divides by zero -/

/-- Selection bounding box `{x, y, w, h}` as used by `getSelectionBounds`
and the transform code of `MemoEditor.tsx`. -/
structure SelBounds (α : Type) where
  x : α
  y : α
  w : α
  h : α
deriving DecidableEq

/-- Contribution of one element to the min/max accumulators of
`getSelectionBounds` (`none` when the element contributes no point: an empty
stroke's inner loop does not run). -/
def selMinMax : DrawingElement α → Option (α × α × α × α)
  | .stroke pts _ _ _ _ =>
    match pts with
    | [] => none
    | p :: rest =>
      some (rest.foldl (fun m q => min m q.x) p.x,
            rest.foldl (fun m q => max m q.x) p.x,
            rest.foldl (fun m q => min m q.y) p.y,
            rest.foldl (fun m q => max m q.y) p.y)
  | .text x y content fontSize _ _ _ =>
    let w := (content.length : α) * fontSize * (6 / 10)
    let h := fontSize
    some (x, x + w, y - h, y)
  | .rect x y w h _ _ _ _ => some (x, x + w, y, y + h)
  | .circle x y radius _ _ _ _ =>
    some (x - radius, x + radius, y - radius, y + radius)
  | .line a b _ _ _ _ =>
    some (min a.x b.x, max a.x b.x, min a.y b.y, max a.y b.y)

/-- Merge two `(minX, maxX, minY, maxY)` quadruples. -/
def mergeMinMax (a b : α × α × α × α) : α × α × α × α :=
  (min a.1 b.1, max a.2.1 b.2.1, min a.2.2.1 b.2.2.1, max a.2.2.2 b.2.2.2)

/-- Embedding of `MemoEditor.tsx` `getSelectionBounds`, applied to the already-filtered
list of selected elements: `null` for an empty selection, otherwise the
min/max fold over every selected element's contributed coordinates.  (The
source initialises the fold with `±Infinity` sentinels, which a field cannot
represent; a selection consisting solely of empty strokes, which would
return the sentinel box in the source, is mapped to `none` here.) -/
def getSelectionBounds (selectedEls : List (DrawingElement α)) :
    Option (SelBounds α) :=
  if selectedEls.length = 0 then none
  else
    match selectedEls.foldl
      (fun acc el =>
        match acc, selMinMax el with
        | none, r => r
        | some a, none => some a
        | some a, some b => some (mergeMinMax a b)) none with
    | none => none
    | some (minX, maxX, minY, maxY) => some ⟨minX, minY, maxX - minX, maxY - minY⟩

/-- The per-axis linear map of `MemoEditor.tsx` `scaleElement`:
`NewX = NewBounds.X + (x - OldBounds.X) * (NewWidth / OldWidth)`. -/
def mapX (oldB newB : SelBounds α) (x : α) : α :=
  newB.x + (x - oldB.x) * (newB.w / oldB.w)

/-- The y-axis companion of `mapX`. -/
def mapY (oldB newB : SelBounds α) (y : α) : α :=
  newB.y + (y - oldB.y) * (newB.h / oldB.h)

/-- The `mapPt` helper of `scaleElement`. -/
def mapPt (oldB newB : SelBounds α) (p : Pt α) : Pt α :=
  ⟨mapX oldB newB p.x, mapY oldB newB p.y⟩

/-- Embedding of `MemoEditor.tsx` `scaleElement`. -/
def scaleElement (el : DrawingElement α) (oldB newB : SelBounds α) :
    DrawingElement α :=
  match el with
  | .stroke pts c w i l => .stroke (pts.map (mapPt oldB newB)) c w i l
  | .line a b c w i l => .line (mapPt oldB newB a) (mapPt oldB newB b) c w i l
  | .rect x y w h c sw i l =>
    .rect (mapX oldB newB x) (mapY oldB newB y)
      (w * (newB.w / oldB.w)) (h * (newB.h / oldB.h)) c sw i l
  | .circle x y r c sw i l =>
    .circle (mapX oldB newB x) (mapY oldB newB y) (r * |newB.w / oldB.w|) c sw i l
  | .text x y content fs c i l =>
    .text (mapX oldB newB x) (mapY oldB newB y) content (fs * |newB.h / oldB.h|) c i l

/-- The four corner resize handles of the selection box. -/
inductive Handle where
  | nw
  | ne
  | se
  | sw
deriving DecidableEq

/-- The new selection bounds computed by the scale branch of `onPointerMove`
(`MemoEditor.tsx`): start from the original box (reconstructed from its
center and size), adjust the dragged corner by the pointer delta, then clamp
the target width and height to a minimum of `1`. -/
def computeNewBounds (tm : Handle) (dx dy : α) (center : Pt α) (sw sh : α) :
    SelBounds α :=
  let b0 : SelBounds α := ⟨center.x - sw / 2, center.y - sh / 2, sw, sh⟩
  let b1 : SelBounds α :=
    match tm with
    | .se => ⟨b0.x, b0.y, b0.w + dx, b0.h + dy⟩
    | .sw => ⟨b0.x + dx, b0.y, b0.w - dx, b0.h + dy⟩
    | .ne => ⟨b0.x, b0.y + dy, b0.w + dx, b0.h - dy⟩
    | .nw => ⟨b0.x + dx, b0.y + dy, b0.w - dx, b0.h - dy⟩
  let w' := if b1.w < 1 then 1 else b1.w
  let h' := if b1.h < 1 then 1 else b1.h
  ⟨b1.x, b1.y, w', h'⟩

/-- The horizontal line whose selection box is degenerate (height `0`). -/
def c6ex_line : DrawingElement ℚ := .line ⟨0, 0⟩ ⟨10, 0⟩ "black" 2 "ln" none

/-! ### Claims C1 and C2: the spatial index -/

/-- Element used to refute claim C1 as stated: a one-point stroke at
`(10, 10)` of width `30`, whose padded bounds `(-5, -5, 30, 30)` stick out of
the logical plane `appRect` on the left. -/
def c1ex_el : DrawingElement ℚ := .stroke [⟨10, 10⟩] "black" 30 "s1" none

/-- Query rectangle for the C1 counterexample: it overlaps the element's
bounds only outside the logical plane. -/
def c1ex_R : Rect ℚ := ⟨-5, 10, 2, 2⟩

/-- Element witnessing the amended claim C1 on a concrete input. -/
def c1w_el : DrawingElement ℚ := .line ⟨1, 1⟩ ⟨5, 5⟩ "black" 2 "w1" none

/-- Element used to refute claim C2 as stated: a stroke outside the logical
plane, which `insert` rejects, so the round trip loses it. -/
def c2ex_el : DrawingElement ℚ := .stroke [⟨-100, -100⟩] "black" 2 "s2" none

/-- Element witnessing the amended claim C2 on a concrete input. -/
def c2w_el : DrawingElement ℚ := .circle 50 50 10 "black" 2 "w2" none

noncomputable section

/-- Embedding of `geometry.ts` `distance`. -/
def distance (a b : Pt ℝ) : ℝ :=
  Real.sqrt ((b.x - a.x) ^ 2 + (b.y - a.y) ^ 2)

/-- Embedding of `MemoEditor.tsx` `distanceToSegment`: distance from `p` to the closed
segment `[v, w]`, with the source's early return for a degenerate segment. -/
def distanceToSegment (p v w : Pt ℝ) : ℝ :=
  let l2 := (v.x - w.x) ^ 2 + (v.y - w.y) ^ 2
  if l2 = 0 then Real.sqrt ((p.x - v.x) ^ 2 + (p.y - v.y) ^ 2)
  else
    let t := ((p.x - v.x) * (w.x - v.x) + (p.y - v.y) * (w.y - v.y)) / l2
    let t' := max 0 (min 1 t)
    Real.sqrt ((p.x - (v.x + t' * (w.x - v.x))) ^ 2 +
               (p.y - (v.y + t' * (w.y - v.y))) ^ 2)

/-- Embedding of `MemoEditor.tsx` `isPointNearElement`.  For an empty stroke the source's
`±Infinity` bounding box rejects every point, so the result is `false`; for
a nonempty stroke the min/max fold from `±Infinity` equals the fold from the
first point. -/
def isPointNearElement (point : Pt ℝ) (el : DrawingElement ℝ)
    (threshold : ℝ) : Bool :=
  match el with
  | .stroke pts _ w _ _ =>
    let t := threshold + w / 2
    match pts with
    | [] => false
    | p :: rest =>
      let minX := rest.foldl (fun m q => min m q.x) p.x
      let maxX := rest.foldl (fun m q => max m q.x) p.x
      let minY := rest.foldl (fun m q => min m q.y) p.y
      let maxY := rest.foldl (fun m q => max m q.y) p.y
      if point.x < minX - t ∨ point.x > maxX + t ∨
         point.y < minY - t ∨ point.y > maxY + t then false
      else
        ((p :: rest).zip rest).any
          (fun q => decide (distanceToSegment point q.1 q.2 < t))
  | .line a b _ w _ _ =>
    let t := threshold + w / 2
    decide (distanceToSegment point a b < t)
  | .circle x y radius _ w _ _ =>
    let t := threshold + w / 2
    let d := Real.sqrt ((point.x - x) ^ 2 + (point.y - y) ^ 2)
    decide (|d - radius| < t)
  | .rect x y width height _ w _ _ =>
    let t := threshold + w / 2
    let p1 : Pt ℝ := ⟨x, y⟩
    let p2 : Pt ℝ := ⟨x + width, y⟩
    let p3 : Pt ℝ := ⟨x + width, y + height⟩
    let p4 : Pt ℝ := ⟨x, y + height⟩
    decide (distanceToSegment point p1 p2 < t ∨ distanceToSegment point p2 p3 < t ∨
            distanceToSegment point p3 p4 < t ∨ distanceToSegment point p4 p1 < t)
  | .text x y content fontSize _ _ _ =>
    let w := (content.length : ℝ) * fontSize * (6 / 10)
    let h := fontSize
    decide (point.x ≥ x ∧ point.x ≤ x + w ∧ point.y ≥ y - h ∧ point.y ≤ y + 10)

/-- The `i += 3` index sampling of `isStrokeIntersectingElement`:
indices 0, 3, 6, …. -/
def sampleStep3 : List (Pt ℝ) → List (Pt ℝ)
  | [] => []
  | [p] => [p]
  | [p, _] => [p]
  | p :: _ :: _ :: rest => p :: sampleStep3 rest

/-- Embedding of `MemoEditor.tsx` `isStrokeIntersectingElement`. -/
def isStrokeIntersectingElement (stroke : List (Pt ℝ)) (el : DrawingElement ℝ)
    (threshold : ℝ) : Bool :=
  (sampleStep3 stroke).any (fun p => isPointNearElement p el threshold)

/-- First sample of a finished stroke (`points[0]`; arbitrary on `[]`,
unreachable behind the length guard). -/
def pathHead : List (Pt ℝ) → Pt ℝ
  | [] => ⟨0, 0⟩
  | p :: _ => p

/-- Last sample of a finished stroke (`points[points.length - 1]`). -/
def pathLast : List (Pt ℝ) → Pt ℝ
  | [] => ⟨0, 0⟩
  | p :: rest => rest.foldl (fun _ q => q) p

/-- Total path length of `recognizeShape`'s statistics loop:
`Σ distance(points[i-1], points[i])`. -/
def pathLen (pts : List (Pt ℝ)) : ℝ :=
  (pts.zip pts.tail).foldl (fun acc q => acc + distance q.1 q.2) 0

/-- Bounding-box fold of `recognizeShape` (initialised at `points[0]`). -/
def pathMinX : List (Pt ℝ) → ℝ
  | [] => 0
  | p :: rest => rest.foldl (fun m q => min m q.x) p.x

/-- See `pathMinX`. -/
def pathMaxX : List (Pt ℝ) → ℝ
  | [] => 0
  | p :: rest => rest.foldl (fun m q => max m q.x) p.x

/-- See `pathMinX`. -/
def pathMinY : List (Pt ℝ) → ℝ
  | [] => 0
  | p :: rest => rest.foldl (fun m q => min m q.y) p.y

/-- See `pathMinX`. -/
def pathMaxY : List (Pt ℝ) → ℝ
  | [] => 0
  | p :: rest => rest.foldl (fun m q => max m q.y) p.y

/-- Result of `geometry.ts` `recognizeShape` (`{type, params}` or `null`). -/
inductive RecShape where
  | lineR (start stop : Pt ℝ)
  | circleR (x y radius : ℝ)
  | rectR (x y width height : ℝ)

/-- Embedding of `geometry.ts` `recognizeShape`.  The statistics the source gathers in one
loop (start/end distance, total length, bounding box) are factored into the
`path*` helpers above, which perform the same folds. -/
def recognizeShape (points : List (Pt ℝ)) : Option RecShape :=
  if points.length < 10 then none
  else
    let start := pathHead points
    let stop := pathLast points
    let d := distance start stop
    let totalLength := pathLen points
    let straightness := d / totalLength
    if straightness > 93 / 100 then some (.lineR start stop)
    else if d < totalLength * (2 / 10) ∨ d < 40 then
      let width := pathMaxX points - pathMinX points
      let height := pathMaxY points - pathMinY points
      let ratio := width / height
      if ratio > 8 / 10 ∧ ratio < 12 / 10 then
        some (.circleR (pathMinX points + width / 2) (pathMinY points + height / 2)
          ((width + height) / 4))
      else
        some (.rectR (pathMinX points) (pathMinY points) width height)
    else none

/-- The point rotation inside `MemoEditor.tsx` `rotateElement`:
rotate `p` about `center` by `angle`. -/
def rotatePoint (center : Pt ℝ) (angle : ℝ) (p : Pt ℝ) : Pt ℝ :=
  ⟨center.x + (p.x - center.x) * Real.cos angle - (p.y - center.y) * Real.sin angle,
   center.y + (p.x - center.x) * Real.sin angle + (p.y - center.y) * Real.cos angle⟩

/-- Embedding of `MemoEditor.tsx` `rotateElement`: strokes and lines are rotated
pointwise, text and circles only have their anchor/center moved, and an
axis-aligned rectangle is converted into the closed 5-point stroke polygon
of its rotated corners, keeping id, color, width and link. -/
def rotateElement (el : DrawingElement ℝ) (center : Pt ℝ) (angle : ℝ) :
    DrawingElement ℝ :=
  match el with
  | .stroke pts c w i l => .stroke (pts.map (rotatePoint center angle)) c w i l
  | .line a b c w i l =>
    .line (rotatePoint center angle a) (rotatePoint center angle b) c w i l
  | .text x y content fs c i l =>
    let p := rotatePoint center angle ⟨x, y⟩
    .text p.x p.y content fs c i l
  | .rect x y width height c w i l =>
    let p1 : Pt ℝ := ⟨x, y⟩
    let p2 : Pt ℝ := ⟨x + width, y⟩
    let p3 : Pt ℝ := ⟨x + width, y + height⟩
    let p4 : Pt ℝ := ⟨x, y + height⟩
    .stroke ([p1, p2, p3, p4, p1].map (rotatePoint center angle)) c w i l
  | .circle x y r c w i l =>
    let p := rotatePoint center angle ⟨x, y⟩
    .circle p.x p.y r c w i l

/-- Embedding of the `MemoEditor.tsx` Undo button handler: `setElements(e => e.slice(0, -1))`. -/
def undoElements (es : List (DrawingElement ℝ)) : List (DrawingElement ℝ) :=
  es.dropLast

/-- Embedding of `MemoEditor.tsx` `commitStroke`: a no-op on an empty stroke; in eraser
mode, remove every element the sampled stroke intersects within
`eraserWidth / 2`; otherwise append one new stroke element with a fresh
identifier, reclassified by the recognizer when the auto-shape toggle is on
(the source merges `{type, params}` over the stroke object). -/
def commitStroke (mode : Mode) (eraserWidth penWidth : ℝ) (autoShape : Bool)
    (elements : List (DrawingElement ℝ)) (stroke : List (Pt ℝ))
    (newId : String) : List (DrawingElement ℝ) :=
  if stroke.length = 0 then elements
  else if mode = Mode.eraser then
    elements.filter
      (fun el => ! isStrokeIntersectingElement stroke el (eraserWidth / 2))
  else
    let base : DrawingElement ℝ := .stroke stroke "black" penWidth newId none
    let newElement :=
      if autoShape then
        match recognizeShape stroke with
        | some (.lineR a b) => DrawingElement.line a b "black" penWidth newId none
        | some (.circleR x y r) => DrawingElement.circle x y r "black" penWidth newId none
        | some (.rectR x y w h) => DrawingElement.rect x y w h "black" penWidth newId none
        | none => base
      else base
    elements ++ [newElement]

/-! ### Claims C4, C5, C7, C9 -/

/-- Scenario C stroke element: width 2 through (0,0)–(10,0). -/
def scStrokeEl : DrawingElement ℝ := .stroke [⟨0, 0⟩, ⟨10, 0⟩] "black" 2 "tgt" none

/-- Scenario C eraser path: one sample at (5, 0). -/
def scEraserPts : List (Pt ℝ) := [⟨5, 0⟩]

/-- The spec's analytic rotation of a point about a center by a signed angle
(the formula Scenario E prescribes for the rectangle corners). -/
def specRotate (center : Pt ℝ) (angle : ℝ) (p : Pt ℝ) : Pt ℝ :=
  ⟨center.x + (p.x - center.x) * Real.cos angle - (p.y - center.y) * Real.sin angle,
   center.y + (p.x - center.x) * Real.sin angle + (p.y - center.y) * Real.cos angle⟩

/-- The zero-radius circle of the C9 counterexample. -/
def c9ex_circle : DrawingElement ℝ := .circle 0 0 0 "black" 2 "c0" none

/-- The 11-sample rectangular loop of the C8 counterexample: closed path of
total length 44 whose bounding box is 12 × 10 — aspect ratio exactly 1.2. -/
def c8ex_pts : List (Pt ℝ) :=
  [⟨0, 0⟩, ⟨3, 0⟩, ⟨6, 0⟩, ⟨9, 0⟩, ⟨12, 0⟩, ⟨12, 10⟩, ⟨9, 10⟩, ⟨6, 10⟩,
   ⟨3, 10⟩, ⟨0, 10⟩, ⟨0, 0⟩]

/-- The 10-sample square loop witnessing the amended claim C8: closed path
of total length 40 with a 10 × 10 bounding box — aspect ratio 1. -/
def c8w_pts : List (Pt ℝ) :=
  [⟨0, 0⟩, ⟨5, 0⟩, ⟨10, 0⟩, ⟨10, 5⟩, ⟨10, 10⟩, ⟨5, 10⟩, ⟨0, 10⟩, ⟨0, 5⟩,
   ⟨0, 2⟩, ⟨0, 0⟩]

end

/-! ### Theorems: overlap facts, index invariants, and the claims -/

omit [LinearOrderedField α] in
@[simp] theorem qbounds_leaf (b : Rect α) (es : List (DrawingElement α)) :
    (Quadtree.leaf b es).qbounds = b := rfl

omit [LinearOrderedField α] in
@[simp] theorem qbounds_divided (b : Rect α) (es : List (DrawingElement α))
    (c1 c2 c3 c4 : Quadtree α) :
    (Quadtree.divided b es c1 c2 c3 c4).qbounds = b := rfl

theorem intersects_iff {a b : Rect α} :
    intersects a b = true ↔
      a.x ≤ b.x + b.width ∧ b.x ≤ a.x + a.width ∧
      a.y ≤ b.y + b.height ∧ b.y ≤ a.y + a.height := by
  simp only [intersects, decide_eq_true_eq, not_or, not_lt]

theorem intersects_of_pointIn {p : Pt α} {a b : Rect α}
    (ha : pointIn p a) (hb : pointIn p b) : intersects a b = true := by
  obtain ⟨h1, h2, h3, h4⟩ := ha
  obtain ⟨g1, g2, g3, g4⟩ := hb
  rw [intersects_iff]
  exact ⟨by linarith, by linarith, by linarith, by linarith⟩

theorem exists_pointIn_two {a b : Rect α}
    (hna : rectNonneg a) (hnb : rectNonneg b)
    (h : intersects a b = true) :
    ∃ p : Pt α, pointIn p a ∧ pointIn p b := by
  rw [intersects_iff] at h
  obtain ⟨h1, h2, h3, h4⟩ := h
  obtain ⟨hwa, hha⟩ := hna
  obtain ⟨hwb, hhb⟩ := hnb
  refine ⟨⟨max a.x b.x, max a.y b.y⟩, ⟨le_max_left _ _, ?_, le_max_left _ _, ?_⟩,
    ⟨le_max_right _ _, ?_, le_max_right _ _, ?_⟩⟩ <;>
    rw [max_le_iff] <;> constructor <;> linarith

theorem exists_pointIn_three {a b c : Rect α}
    (hna : rectNonneg a) (hnb : rectNonneg b) (hnc : rectNonneg c)
    (hab : intersects a b = true) (hbc : intersects b c = true)
    (hac : intersects a c = true) :
    ∃ p : Pt α, pointIn p a ∧ pointIn p b ∧ pointIn p c := by
  rw [intersects_iff] at hab hbc hac
  obtain ⟨hwa, hha⟩ := hna
  obtain ⟨hwb, hhb⟩ := hnb
  obtain ⟨hwc, hhc⟩ := hnc
  obtain ⟨ab1, ab2, ab3, ab4⟩ := hab
  obtain ⟨bc1, bc2, bc3, bc4⟩ := hbc
  obtain ⟨ac1, ac2, ac3, ac4⟩ := hac
  refine ⟨⟨max a.x (max b.x c.x), max a.y (max b.y c.y)⟩, ?_, ?_, ?_⟩ <;>
    refine ⟨?_, ?_, ?_, ?_⟩ <;>
    first
      | exact le_max_left _ _
      | exact le_max_of_le_right (le_max_left _ _)
      | exact le_max_of_le_right (le_max_right _ _)
      | (rw [max_le_iff, max_le_iff]; refine ⟨by linarith, by linarith, by linarith⟩)

/-- The four quadrants of a box tile it: any point of the box lies in at
least one quadrant. -/
theorem pointIn_quadrant {p : Pt α} {b : Rect α} (h : pointIn p b) :
    pointIn p (quadNW b) ∨ pointIn p (quadNE b) ∨
    pointIn p (quadSW b) ∨ pointIn p (quadSE b) := by
  obtain ⟨h1, h2, h3, h4⟩ := h
  have hx : p.x ≤ b.x + b.width / 2 ∨ b.x + b.width / 2 ≤ p.x := le_total _ _
  have hy : p.y ≤ b.y + b.height / 2 ∨ b.y + b.height / 2 ≤ p.y := le_total _ _
  rcases hx with hx | hx <;> rcases hy with hy | hy
  · exact Or.inl ⟨h1, hx, h3, hy⟩
  · exact Or.inr (Or.inr (Or.inl ⟨h1, hx, hy, by simp [quadSW]; linarith⟩))
  · exact Or.inr (Or.inl ⟨hx, by simp [quadNE]; linarith, h3, hy⟩)
  · exact Or.inr (Or.inr (Or.inr ⟨hx, by simp [quadSE]; linarith, hy, by simp [quadSE]; linarith⟩))

theorem insert_qbounds (cap maxL lvl : ℕ) (t : Quadtree α) (el : DrawingElement α) :
    ((Quadtree.insert cap maxL lvl t el).1).qbounds = t.qbounds := by
  cases t <;> rw [Quadtree.insert] <;> split <;>
    first
      | rfl
      | (split <;> rfl)

theorem redistribute_qbounds (cap maxL clvl : ℕ)
    (els : List (DrawingElement α)) :
    ∀ c1 c2 c3 c4 : Quadtree α,
      ((Quadtree.redistribute cap maxL clvl c1 c2 c3 c4 els).1.qbounds = c1.qbounds ∧
       (Quadtree.redistribute cap maxL clvl c1 c2 c3 c4 els).2.1.qbounds = c2.qbounds ∧
       (Quadtree.redistribute cap maxL clvl c1 c2 c3 c4 els).2.2.1.qbounds = c3.qbounds ∧
       (Quadtree.redistribute cap maxL clvl c1 c2 c3 c4 els).2.2.2.qbounds = c4.qbounds) := by
  induction els with
  | nil => intro c1 c2 c3 c4; rw [Quadtree.redistribute]; exact ⟨rfl, rfl, rfl, rfl⟩
  | cons el rest ih =>
    intro c1 c2 c3 c4
    rw [Quadtree.redistribute]
    refine ⟨?_, ?_, ?_, ?_⟩ <;>
      simp only [(ih _ _ _ _).1, (ih _ _ _ _).2.1, (ih _ _ _ _).2.2.1, (ih _ _ _ _).2.2.2,
        insert_qbounds]

theorem redistribute_wf (cap maxL clvl : ℕ)
    (hIH : ∀ (t : Quadtree α) (el : DrawingElement α),
      qtWF t → qtWF (Quadtree.insert cap maxL clvl t el).1)
    (els : List (DrawingElement α)) :
    ∀ c1 c2 c3 c4 : Quadtree α, qtWF c1 → qtWF c2 → qtWF c3 → qtWF c4 →
      (qtWF (Quadtree.redistribute cap maxL clvl c1 c2 c3 c4 els).1 ∧
       qtWF (Quadtree.redistribute cap maxL clvl c1 c2 c3 c4 els).2.1 ∧
       qtWF (Quadtree.redistribute cap maxL clvl c1 c2 c3 c4 els).2.2.1 ∧
       qtWF (Quadtree.redistribute cap maxL clvl c1 c2 c3 c4 els).2.2.2) := by
  induction els with
  | nil =>
    intro c1 c2 c3 c4 h1 h2 h3 h4
    rw [Quadtree.redistribute]
    exact ⟨h1, h2, h3, h4⟩
  | cons el rest ih =>
    intro c1 c2 c3 c4 h1 h2 h3 h4
    rw [Quadtree.redistribute]
    exact ih _ _ _ _ (hIH _ _ h1) (hIH _ _ h2) (hIH _ _ h3) (hIH _ _ h4)

theorem insert_wf_aux (cap maxL : ℕ) :
    ∀ n lvl, maxL - lvl ≤ n → ∀ (t : Quadtree α) (el : DrawingElement α),
      qtWF t → qtWF (Quadtree.insert cap maxL lvl t el).1 := by
  intro n
  induction n with
  | zero =>
    intro lvl hn t el hwf
    have hlvl : maxL ≤ lvl := by omega
    cases t with
    | leaf b elems =>
      by_cases hI : intersects b (getBounds el) = true
      · rw [Quadtree.insert, if_pos hI, dif_pos (Or.inr hlvl)]
        exact hwf
      · rw [Quadtree.insert, if_neg hI]
        exact hwf
    | divided b elems c1 c2 c3 c4 =>
      by_cases hI : intersects b (getBounds el) = true
      · rw [Quadtree.insert, if_pos hI, dif_pos (Or.inr hlvl)]
        exact hwf
      · rw [Quadtree.insert, if_neg hI]
        exact hwf
  | succ n ih =>
    intro lvl hn t el hwf
    have hstep : maxL - (lvl + 1) ≤ n := by omega
    cases t with
    | leaf b elems =>
      by_cases hI : intersects b (getBounds el) = true
      · rw [Quadtree.insert, if_pos hI]
        by_cases hC : elems.length < cap ∨ maxL ≤ lvl
        · rw [dif_pos hC]; exact hwf
        · rw [dif_neg hC]
          simp only [qtWF]
          obtain ⟨hw, hh⟩ := hwf
          have hfresh1 : qtWF (Quadtree.leaf (quadNW b) ([] : List (DrawingElement α))) :=
            ⟨half_pos hw, half_pos hh⟩
          have hfresh2 : qtWF (Quadtree.leaf (quadNE b) ([] : List (DrawingElement α))) :=
            ⟨half_pos hw, half_pos hh⟩
          have hfresh3 : qtWF (Quadtree.leaf (quadSW b) ([] : List (DrawingElement α))) :=
            ⟨half_pos hw, half_pos hh⟩
          have hfresh4 : qtWF (Quadtree.leaf (quadSE b) ([] : List (DrawingElement α))) :=
            ⟨half_pos hw, half_pos hh⟩
          have hred := redistribute_wf cap maxL (lvl + 1)
            (fun t' el' hwf' => ih (lvl + 1) hstep t' el' hwf') elems
            _ _ _ _ hfresh1 hfresh2 hfresh3 hfresh4
          have hrb := redistribute_qbounds cap maxL (lvl + 1) elems
            (Quadtree.leaf (quadNW b) []) (Quadtree.leaf (quadNE b) [])
            (Quadtree.leaf (quadSW b) []) (Quadtree.leaf (quadSE b) [])
          refine ⟨hw, hh, ?_, ?_, ?_, ?_, ?_, ?_, ?_, ?_⟩
          · rw [insert_qbounds, hrb.1]; rfl
          · rw [insert_qbounds, hrb.2.1]; rfl
          · rw [insert_qbounds, hrb.2.2.1]; rfl
          · rw [insert_qbounds, hrb.2.2.2]; rfl
          · exact ih (lvl + 1) hstep _ el hred.1
          · exact ih (lvl + 1) hstep _ el hred.2.1
          · exact ih (lvl + 1) hstep _ el hred.2.2.1
          · exact ih (lvl + 1) hstep _ el hred.2.2.2
      · rw [Quadtree.insert, if_neg hI]
        exact hwf
    | divided b elems c1 c2 c3 c4 =>
      by_cases hI : intersects b (getBounds el) = true
      · rw [Quadtree.insert, if_pos hI]
        by_cases hC : elems.length < cap ∨ maxL ≤ lvl
        · rw [dif_pos hC]; exact hwf
        · rw [dif_neg hC]
          simp only [qtWF]
          obtain ⟨hw, hh, hb1, hb2, hb3, hb4, hc1, hc2, hc3, hc4⟩ := hwf
          refine ⟨hw, hh, ?_, ?_, ?_, ?_,
            ih (lvl + 1) hstep _ el hc1, ih (lvl + 1) hstep _ el hc2,
            ih (lvl + 1) hstep _ el hc3, ih (lvl + 1) hstep _ el hc4⟩
          · rw [insert_qbounds]; exact hb1
          · rw [insert_qbounds]; exact hb2
          · rw [insert_qbounds]; exact hb3
          · rw [insert_qbounds]; exact hb4
      · rw [Quadtree.insert, if_neg hI]
        exact hwf

/-- Inserting preserves well-formedness. -/
theorem insert_wf (cap maxL lvl : ℕ) (t : Quadtree α) (el : DrawingElement α)
    (hwf : qtWF t) : qtWF (Quadtree.insert cap maxL lvl t el).1 :=
  insert_wf_aux cap maxL (maxL - lvl) lvl le_rfl t el hwf

theorem redistribute_stored_mono (cap maxL clvl : ℕ)
    (el : DrawingElement α)
    (hP : ∀ (t : Quadtree α) (x : DrawingElement α), qtWF t →
      storedIn el t → storedIn el (Quadtree.insert cap maxL clvl t x).1) :
    ∀ els (c1 c2 c3 c4 : Quadtree α), qtWF c1 → qtWF c2 → qtWF c3 → qtWF c4 →
      ((storedIn el c1 →
          storedIn el (Quadtree.redistribute cap maxL clvl c1 c2 c3 c4 els).1) ∧
       (storedIn el c2 →
          storedIn el (Quadtree.redistribute cap maxL clvl c1 c2 c3 c4 els).2.1) ∧
       (storedIn el c3 →
          storedIn el (Quadtree.redistribute cap maxL clvl c1 c2 c3 c4 els).2.2.1) ∧
       (storedIn el c4 →
          storedIn el (Quadtree.redistribute cap maxL clvl c1 c2 c3 c4 els).2.2.2)) := by
  intro els
  induction els with
  | nil =>
    intro c1 c2 c3 c4 h1 h2 h3 h4
    rw [Quadtree.redistribute]
    exact ⟨fun h => h, fun h => h, fun h => h, fun h => h⟩
  | cons e rest ih =>
    intro c1 c2 c3 c4 h1 h2 h3 h4
    rw [Quadtree.redistribute]
    have := ih _ _ _ _
      (insert_wf cap maxL clvl c1 e h1) (insert_wf cap maxL clvl c2 e h2)
      (insert_wf cap maxL clvl c3 e h3) (insert_wf cap maxL clvl c4 e h4)
    exact ⟨fun h => this.1 (hP _ _ h1 h), fun h => this.2.1 (hP _ _ h2 h),
      fun h => this.2.2.1 (hP _ _ h3 h), fun h => this.2.2.2 (hP _ _ h4 h)⟩

theorem redistribute_stored (cap maxL clvl : ℕ)
    (el : DrawingElement α)
    (hB : ∀ t : Quadtree α, qtWF t →
      intersects t.qbounds (getBounds el) = true →
      storedIn el (Quadtree.insert cap maxL clvl t el).1)
    (hP : ∀ (t : Quadtree α) (x : DrawingElement α), qtWF t →
      storedIn el t → storedIn el (Quadtree.insert cap maxL clvl t x).1) :
    ∀ els (c1 c2 c3 c4 : Quadtree α), qtWF c1 → qtWF c2 → qtWF c3 → qtWF c4 →
      el ∈ els →
      ((intersects c1.qbounds (getBounds el) = true →
          storedIn el (Quadtree.redistribute cap maxL clvl c1 c2 c3 c4 els).1) ∧
       (intersects c2.qbounds (getBounds el) = true →
          storedIn el (Quadtree.redistribute cap maxL clvl c1 c2 c3 c4 els).2.1) ∧
       (intersects c3.qbounds (getBounds el) = true →
          storedIn el (Quadtree.redistribute cap maxL clvl c1 c2 c3 c4 els).2.2.1) ∧
       (intersects c4.qbounds (getBounds el) = true →
          storedIn el (Quadtree.redistribute cap maxL clvl c1 c2 c3 c4 els).2.2.2)) := by
  intro els
  induction els with
  | nil => intro c1 c2 c3 c4 _ _ _ _ hmem; cases hmem
  | cons e rest ih =>
    intro c1 c2 c3 c4 h1 h2 h3 h4 hmem
    rw [Quadtree.redistribute]
    have hw1 := insert_wf cap maxL clvl c1 e h1
    have hw2 := insert_wf cap maxL clvl c2 e h2
    have hw3 := insert_wf cap maxL clvl c3 e h3
    have hw4 := insert_wf cap maxL clvl c4 e h4
    rcases List.mem_cons.1 hmem with heq | hrest
    · subst heq
      have hmono := redistribute_stored_mono cap maxL clvl el hP rest _ _ _ _ hw1 hw2 hw3 hw4
      exact ⟨fun hi => hmono.1 (hB _ h1 hi), fun hi => hmono.2.1 (hB _ h2 hi),
        fun hi => hmono.2.2.1 (hB _ h3 hi), fun hi => hmono.2.2.2 (hB _ h4 hi)⟩
    · have := ih _ _ _ _ hw1 hw2 hw3 hw4 hrest
      rw [insert_qbounds, insert_qbounds, insert_qbounds, insert_qbounds] at this
      exact this

theorem insert_stored_aux (cap maxL : ℕ) :
    ∀ n lvl, maxL - lvl ≤ n → ∀ (t : Quadtree α) (el : DrawingElement α),
      qtWF t → rectNonneg (getBounds el) →
      intersects t.qbounds (getBounds el) = true →
      storedIn el (Quadtree.insert cap maxL lvl t el).1 ∧
        (Quadtree.insert cap maxL lvl t el).2 = true := by
  intro n
  induction n with
  | zero =>
    intro lvl hn t el hwf _ hI
    have hlvl : maxL ≤ lvl := by omega
    cases t with
    | leaf b elems =>
      rw [qbounds_leaf] at hI
      rw [Quadtree.insert, if_pos hI, dif_pos (Or.inr hlvl)]
      exact ⟨List.mem_append_right _ (List.mem_singleton.2 rfl), rfl⟩
    | divided b elems c1 c2 c3 c4 =>
      rw [qbounds_divided] at hI
      rw [Quadtree.insert, if_pos hI, dif_pos (Or.inr hlvl)]
      exact ⟨Or.inl (List.mem_append_right _ (List.mem_singleton.2 rfl)), rfl⟩
  | succ n ih =>
    intro lvl hn t el hwf hne hI
    have hstep : maxL - (lvl + 1) ≤ n := by omega
    cases t with
    | leaf b elems =>
      rw [qbounds_leaf] at hI
      rw [Quadtree.insert, if_pos hI]
      by_cases hC : elems.length < cap ∨ maxL ≤ lvl
      · rw [dif_pos hC]
        exact ⟨List.mem_append_right _ (List.mem_singleton.2 rfl), rfl⟩
      · rw [dif_neg hC]
        obtain ⟨hw, hh⟩ := hwf
        have hfresh1 : qtWF (Quadtree.leaf (quadNW b) ([] : List (DrawingElement α))) :=
          ⟨half_pos hw, half_pos hh⟩
        have hfresh2 : qtWF (Quadtree.leaf (quadNE b) ([] : List (DrawingElement α))) :=
          ⟨half_pos hw, half_pos hh⟩
        have hfresh3 : qtWF (Quadtree.leaf (quadSW b) ([] : List (DrawingElement α))) :=
          ⟨half_pos hw, half_pos hh⟩
        have hfresh4 : qtWF (Quadtree.leaf (quadSE b) ([] : List (DrawingElement α))) :=
          ⟨half_pos hw, half_pos hh⟩
        have hred := redistribute_wf cap maxL (lvl + 1)
          (fun t' el' hwf' => insert_wf cap maxL (lvl + 1) t' el' hwf') elems
          _ _ _ _ hfresh1 hfresh2 hfresh3 hfresh4
        have hrb := redistribute_qbounds cap maxL (lvl + 1) elems
          (Quadtree.leaf (quadNW b) []) (Quadtree.leaf (quadNE b) [])
          (Quadtree.leaf (quadSW b) []) (Quadtree.leaf (quadSE b) [])
        simp only [qbounds_leaf] at hrb
        constructor
        · simp only [storedIn]
          refine Or.inr ⟨?_, ?_, ?_, ?_⟩ <;>
            intro hint <;>
            rw [insert_qbounds] at hint
          · rw [hrb.1] at hint
            exact (ih (lvl + 1) hstep _ el hred.1 hne (by rw [hrb.1]; exact hint)).1
          · rw [hrb.2.1] at hint
            exact (ih (lvl + 1) hstep _ el hred.2.1 hne (by rw [hrb.2.1]; exact hint)).1
          · rw [hrb.2.2.1] at hint
            exact (ih (lvl + 1) hstep _ el hred.2.2.1 hne (by rw [hrb.2.2.1]; exact hint)).1
          · rw [hrb.2.2.2] at hint
            exact (ih (lvl + 1) hstep _ el hred.2.2.2 hne (by rw [hrb.2.2.2]; exact hint)).1
        · -- at least one quadrant accepts the element
          obtain ⟨p, hpb, hpe⟩ := exists_pointIn_two ⟨le_of_lt hw, le_of_lt hh⟩ hne hI
          rcases pointIn_quadrant hpb with hq | hq | hq | hq
          · have : (Quadtree.insert cap maxL (lvl + 1)
                (Quadtree.redistribute cap maxL (lvl + 1) (Quadtree.leaf (quadNW b) [])
                  (Quadtree.leaf (quadNE b) []) (Quadtree.leaf (quadSW b) [])
                  (Quadtree.leaf (quadSE b) []) elems).1 el).2 = true :=
              (ih (lvl + 1) hstep _ el hred.1 hne
                (by rw [hrb.1]; exact intersects_of_pointIn hq hpe)).2
            simp [this]
          · have : (Quadtree.insert cap maxL (lvl + 1)
                (Quadtree.redistribute cap maxL (lvl + 1) (Quadtree.leaf (quadNW b) [])
                  (Quadtree.leaf (quadNE b) []) (Quadtree.leaf (quadSW b) [])
                  (Quadtree.leaf (quadSE b) []) elems).2.1 el).2 = true :=
              (ih (lvl + 1) hstep _ el hred.2.1 hne
                (by rw [hrb.2.1]; exact intersects_of_pointIn hq hpe)).2
            simp [this]
          · have : (Quadtree.insert cap maxL (lvl + 1)
                (Quadtree.redistribute cap maxL (lvl + 1) (Quadtree.leaf (quadNW b) [])
                  (Quadtree.leaf (quadNE b) []) (Quadtree.leaf (quadSW b) [])
                  (Quadtree.leaf (quadSE b) []) elems).2.2.1 el).2 = true :=
              (ih (lvl + 1) hstep _ el hred.2.2.1 hne
                (by rw [hrb.2.2.1]; exact intersects_of_pointIn hq hpe)).2
            simp [this]
          · have : (Quadtree.insert cap maxL (lvl + 1)
                (Quadtree.redistribute cap maxL (lvl + 1) (Quadtree.leaf (quadNW b) [])
                  (Quadtree.leaf (quadNE b) []) (Quadtree.leaf (quadSW b) [])
                  (Quadtree.leaf (quadSE b) []) elems).2.2.2 el).2 = true :=
              (ih (lvl + 1) hstep _ el hred.2.2.2 hne
                (by rw [hrb.2.2.2]; exact intersects_of_pointIn hq hpe)).2
            simp [this]
    | divided b elems c1 c2 c3 c4 =>
      rw [qbounds_divided] at hI
      rw [Quadtree.insert, if_pos hI]
      by_cases hC : elems.length < cap ∨ maxL ≤ lvl
      · rw [dif_pos hC]
        exact ⟨Or.inl (List.mem_append_right _ (List.mem_singleton.2 rfl)), rfl⟩
      · rw [dif_neg hC]
        obtain ⟨hw, hh, hb1, hb2, hb3, hb4, hc1, hc2, hc3, hc4⟩ := hwf
        constructor
        · simp only [storedIn]
          refine Or.inr ⟨?_, ?_, ?_, ?_⟩ <;>
            intro hint <;>
            rw [insert_qbounds] at hint
          · exact (ih (lvl + 1) hstep _ el hc1 hne hint).1
          · exact (ih (lvl + 1) hstep _ el hc2 hne hint).1
          · exact (ih (lvl + 1) hstep _ el hc3 hne hint).1
          · exact (ih (lvl + 1) hstep _ el hc4 hne hint).1
        · obtain ⟨p, hpb, hpe⟩ := exists_pointIn_two ⟨le_of_lt hw, le_of_lt hh⟩ hne hI
          rcases pointIn_quadrant hpb with hq | hq | hq | hq
          · have := (ih (lvl + 1) hstep c1 el hc1 hne
              (by rw [hb1]; exact intersects_of_pointIn hq hpe)).2
            simp [this]
          · have := (ih (lvl + 1) hstep c2 el hc2 hne
              (by rw [hb2]; exact intersects_of_pointIn hq hpe)).2
            simp [this]
          · have := (ih (lvl + 1) hstep c3 el hc3 hne
              (by rw [hb3]; exact intersects_of_pointIn hq hpe)).2
            simp [this]
          · have := (ih (lvl + 1) hstep c4 el hc4 hne
              (by rw [hb4]; exact intersects_of_pointIn hq hpe)).2
            simp [this]

/-- Inserting an element whose (nonnegative-extent) bounds intersect the node
region stores it query-reachably and reports success. -/
theorem insert_stored (cap maxL lvl : ℕ) (t : Quadtree α) (el : DrawingElement α)
    (hwf : qtWF t) (hne : rectNonneg (getBounds el))
    (hI : intersects t.qbounds (getBounds el) = true) :
    storedIn el (Quadtree.insert cap maxL lvl t el).1 ∧
      (Quadtree.insert cap maxL lvl t el).2 = true :=
  insert_stored_aux cap maxL (maxL - lvl) lvl le_rfl t el hwf hne hI

theorem insert_stored_mono_aux (cap maxL : ℕ) :
    ∀ n lvl, maxL - lvl ≤ n → ∀ (t : Quadtree α) (el x : DrawingElement α),
      qtWF t → rectNonneg (getBounds el) → storedIn el t →
      storedIn el (Quadtree.insert cap maxL lvl t x).1 := by
  intro n
  induction n with
  | zero =>
    intro lvl hn t el x hwf hne hst
    have hlvl : maxL ≤ lvl := by omega
    cases t with
    | leaf b elems =>
      by_cases hI : intersects b (getBounds x) = true
      · rw [Quadtree.insert, if_pos hI, dif_pos (Or.inr hlvl)]
        exact List.mem_append_left _ hst
      · rw [Quadtree.insert, if_neg hI]; exact hst
    | divided b elems c1 c2 c3 c4 =>
      by_cases hI : intersects b (getBounds x) = true
      · rw [Quadtree.insert, if_pos hI, dif_pos (Or.inr hlvl)]
        rcases hst with h | h
        · exact Or.inl (List.mem_append_left _ h)
        · exact Or.inr h
      · rw [Quadtree.insert, if_neg hI]; exact hst
  | succ n ih =>
    intro lvl hn t el x hwf hne hst
    have hstep : maxL - (lvl + 1) ≤ n := by omega
    cases t with
    | leaf b elems =>
      by_cases hI : intersects b (getBounds x) = true
      · rw [Quadtree.insert, if_pos hI]
        by_cases hC : elems.length < cap ∨ maxL ≤ lvl
        · rw [dif_pos hC]; exact List.mem_append_left _ hst
        · rw [dif_neg hC]
          obtain ⟨hw, hh⟩ := hwf
          have hfresh1 : qtWF (Quadtree.leaf (quadNW b) ([] : List (DrawingElement α))) :=
            ⟨half_pos hw, half_pos hh⟩
          have hfresh2 : qtWF (Quadtree.leaf (quadNE b) ([] : List (DrawingElement α))) :=
            ⟨half_pos hw, half_pos hh⟩
          have hfresh3 : qtWF (Quadtree.leaf (quadSW b) ([] : List (DrawingElement α))) :=
            ⟨half_pos hw, half_pos hh⟩
          have hfresh4 : qtWF (Quadtree.leaf (quadSE b) ([] : List (DrawingElement α))) :=
            ⟨half_pos hw, half_pos hh⟩
          have hred := redistribute_wf cap maxL (lvl + 1)
            (fun t' el' hwf' => insert_wf cap maxL (lvl + 1) t' el' hwf') elems
            _ _ _ _ hfresh1 hfresh2 hfresh3 hfresh4
          have hrb := redistribute_qbounds cap maxL (lvl + 1) elems
            (Quadtree.leaf (quadNW b) []) (Quadtree.leaf (quadNE b) [])
            (Quadtree.leaf (quadSW b) []) (Quadtree.leaf (quadSE b) [])
          simp only [qbounds_leaf] at hrb
          have hrs := redistribute_stored cap maxL (lvl + 1) el
            (fun t' hwf' hint' =>
              (insert_stored cap maxL (lvl + 1) t' el hwf' hne hint').1)
            (fun t' x' hwf' hst' => ih (lvl + 1) hstep t' el x' hwf' hne hst')
            elems _ _ _ _ hfresh1 hfresh2 hfresh3 hfresh4 hst
          simp only [qbounds_leaf] at hrs
          simp only [storedIn]
          refine Or.inr ⟨?_, ?_, ?_, ?_⟩ <;>
            intro hint <;>
            rw [insert_qbounds] at hint
          · rw [hrb.1] at hint
            exact ih (lvl + 1) hstep _ el x hred.1 hne (hrs.1 hint)
          · rw [hrb.2.1] at hint
            exact ih (lvl + 1) hstep _ el x hred.2.1 hne (hrs.2.1 hint)
          · rw [hrb.2.2.1] at hint
            exact ih (lvl + 1) hstep _ el x hred.2.2.1 hne (hrs.2.2.1 hint)
          · rw [hrb.2.2.2] at hint
            exact ih (lvl + 1) hstep _ el x hred.2.2.2 hne (hrs.2.2.2 hint)
      · rw [Quadtree.insert, if_neg hI]; exact hst
    | divided b elems c1 c2 c3 c4 =>
      by_cases hI : intersects b (getBounds x) = true
      · rw [Quadtree.insert, if_pos hI]
        by_cases hC : elems.length < cap ∨ maxL ≤ lvl
        · rw [dif_pos hC]
          rcases hst with h | h
          · exact Or.inl (List.mem_append_left _ h)
          · exact Or.inr h
        · rw [dif_neg hC]
          obtain ⟨hw, hh, hb1, hb2, hb3, hb4, hc1, hc2, hc3, hc4⟩ := hwf
          rcases hst with h | h
          · exact Or.inl h
          · obtain ⟨f1, f2, f3, f4⟩ := h
            simp only [storedIn]
            refine Or.inr ⟨?_, ?_, ?_, ?_⟩ <;>
              intro hint <;>
              rw [insert_qbounds] at hint
            · exact ih (lvl + 1) hstep _ el x hc1 hne (f1 hint)
            · exact ih (lvl + 1) hstep _ el x hc2 hne (f2 hint)
            · exact ih (lvl + 1) hstep _ el x hc3 hne (f3 hint)
            · exact ih (lvl + 1) hstep _ el x hc4 hne (f4 hint)
      · rw [Quadtree.insert, if_neg hI]; exact hst

/-- Inserting any further element preserves query-reachable storage of the
elements already stored. -/
theorem insert_stored_mono (cap maxL lvl : ℕ) (t : Quadtree α)
    (el x : DrawingElement α) (hwf : qtWF t) (hne : rectNonneg (getBounds el))
    (hst : storedIn el t) : storedIn el (Quadtree.insert cap maxL lvl t x).1 :=
  insert_stored_mono_aux cap maxL (maxL - lvl) lvl le_rfl t el x hwf hne hst

theorem mem_listAdd_self {β : Type} [DecidableEq β] (acc : List β) (x : β) :
    x ∈ listAdd acc x := by
  unfold listAdd
  split
  · assumption
  · exact List.mem_append_right _ (List.mem_singleton.2 rfl)

theorem mem_listAdd_of_mem {β : Type} [DecidableEq β] {acc : List β} {y : β} (x : β)
    (h : y ∈ acc) : y ∈ listAdd acc x := by
  unfold listAdd
  split
  · exact h
  · exact List.mem_append_left _ h

theorem mem_of_mem_listAdd {β : Type} [DecidableEq β] {acc : List β} {x y : β}
    (h : y ∈ listAdd acc x) : y ∈ acc ∨ y = x := by
  unfold listAdd at h
  split at h
  · exact Or.inl h
  · rcases List.mem_append.1 h with h' | h'
    · exact Or.inl h'
    · exact Or.inr (List.mem_singleton.1 h')

theorem nodup_listAdd {β : Type} [DecidableEq β] {acc : List β} (x : β)
    (h : acc.Nodup) : (listAdd acc x).Nodup := by
  unfold listAdd
  split
  · exact h
  · rename_i hx
    rw [List.nodup_append]
    refine ⟨h, List.nodup_singleton _, ?_⟩
    intro a ha hax
    rw [List.mem_singleton] at hax
    subst hax
    exact hx ha

variable [DecidableEq α]

theorem mem_queryFold_of_mem {range : Rect α} {y : DrawingElement α}
    (els : List (DrawingElement α)) :
    ∀ acc, y ∈ acc → y ∈ els.foldl (queryStep range) acc := by
  induction els with
  | nil => intro acc h; exact h
  | cons e rest ih =>
    intro acc h
    refine ih _ ?_
    unfold queryStep
    split
    · exact mem_listAdd_of_mem _ h
    · exact h

theorem mem_queryFold_self {range : Rect α} {el : DrawingElement α}
    (els : List (DrawingElement α)) (hmem : el ∈ els)
    (hint : intersects (getBounds el) range = true) :
    ∀ acc, el ∈ els.foldl (queryStep range) acc := by
  induction els with
  | nil => cases hmem
  | cons e rest ih =>
    intro acc
    rcases List.mem_cons.1 hmem with heq | hrest
    · subst heq
      refine mem_queryFold_of_mem rest _ ?_
      unfold queryStep
      rw [if_pos hint]
      exact mem_listAdd_self _ _
    · exact ih hrest _

theorem mem_of_mem_queryFold {range : Rect α} {y : DrawingElement α}
    (els : List (DrawingElement α)) :
    ∀ acc, y ∈ els.foldl (queryStep range) acc → y ∈ acc ∨ y ∈ els := by
  induction els with
  | nil => intro acc h; exact Or.inl h
  | cons e rest ih =>
    intro acc h
    rcases ih _ h with h' | h'
    · unfold queryStep at h'
      split at h'
      · rcases mem_of_mem_listAdd h' with h'' | h''
        · exact Or.inl h''
        · exact Or.inr (List.mem_cons.2 (Or.inl h''))
      · exact Or.inl h'
    · exact Or.inr (List.mem_cons.2 (Or.inr h'))

theorem nodup_queryFold {range : Rect α} (els : List (DrawingElement α)) :
    ∀ acc : List (DrawingElement α), acc.Nodup →
      (els.foldl (queryStep range) acc).Nodup := by
  induction els with
  | nil => intro acc h; exact h
  | cons e rest ih =>
    intro acc h
    refine ih _ ?_
    unfold queryStep
    split
    · exact nodup_listAdd _ h
    · exact h

theorem mem_query_of_mem {range : Rect α} {y : DrawingElement α} (t : Quadtree α) :
    ∀ found, y ∈ found → y ∈ t.query range found := by
  induction t with
  | leaf b elems =>
    intro found h
    rw [Quadtree.query]
    split
    · exact mem_queryFold_of_mem _ _ h
    · exact h
  | divided b elems c1 c2 c3 c4 ih1 ih2 ih3 ih4 =>
    intro found h
    rw [Quadtree.query]
    split
    · exact ih4 _ (ih3 _ (ih2 _ (ih1 _ (mem_queryFold_of_mem _ _ h))))
    · exact h

theorem nodup_query {range : Rect α} (t : Quadtree α) :
    ∀ found : List (DrawingElement α), found.Nodup → (t.query range found).Nodup := by
  induction t with
  | leaf b elems =>
    intro found h
    rw [Quadtree.query]
    split
    · exact nodup_queryFold _ _ h
    · exact h
  | divided b elems c1 c2 c3 c4 ih1 ih2 ih3 ih4 =>
    intro found h
    rw [Quadtree.query]
    split
    · exact ih4 _ (ih3 _ (ih2 _ (ih1 _ (nodup_queryFold _ _ h))))
    · exact h

theorem mem_query_elim {range : Rect α} {y : DrawingElement α} (t : Quadtree α) :
    ∀ found, y ∈ t.query range found → y ∈ found ∨ inTree y t := by
  induction t with
  | leaf b elems =>
    intro found h
    rw [Quadtree.query] at h
    split at h
    · exact mem_of_mem_queryFold _ _ h
    · exact Or.inl h
  | divided b elems c1 c2 c3 c4 ih1 ih2 ih3 ih4 =>
    intro found h
    rw [Quadtree.query] at h
    split at h
    · rcases ih4 _ h with h' | h'
      · rcases ih3 _ h' with h'' | h''
        · rcases ih2 _ h'' with h3 | h3
          · rcases ih1 _ h3 with h4 | h4
            · rcases mem_of_mem_queryFold _ _ h4 with h5 | h5
              · exact Or.inl h5
              · exact Or.inr (Or.inl h5)
            · exact Or.inr (Or.inr (Or.inl h4))
          · exact Or.inr (Or.inr (Or.inr (Or.inl h3)))
        · exact Or.inr (Or.inr (Or.inr (Or.inr (Or.inl h''))))
      · exact Or.inr (Or.inr (Or.inr (Or.inr (Or.inr h'))))
    · exact Or.inl h

/-- Culling-correctness core: a query-reachably stored element whose bounds
intersect the range is returned, provided the range also meets the node's
region and everything has nonnegative extents. -/
theorem mem_query_of_storedIn {range : Rect α} {el : DrawingElement α} (t : Quadtree α)
    (hwf : qtWF t) (hne : rectNonneg (getBounds el)) (hnr : rectNonneg range)
    (hst : storedIn el t)
    (hte : intersects t.qbounds (getBounds el) = true)
    (htr : intersects t.qbounds range = true)
    (her : intersects (getBounds el) range = true) :
    ∀ found, el ∈ t.query range found := by
  induction t with
  | leaf b elems =>
    intro found
    rw [qbounds_leaf] at htr
    rw [Quadtree.query, if_pos htr]
    exact mem_queryFold_self _ hst her _
  | divided b elems c1 c2 c3 c4 ih1 ih2 ih3 ih4 =>
    intro found
    rw [qbounds_divided] at htr hte
    rw [Quadtree.query, if_pos htr]
    obtain ⟨hw, hh, hb1, hb2, hb3, hb4, hc1, hc2, hc3, hc4⟩ := hwf
    rcases hst with hown | ⟨f1, f2, f3, f4⟩
    · refine mem_query_of_mem _ _ (mem_query_of_mem _ _ (mem_query_of_mem _ _
        (mem_query_of_mem _ _ ?_)))
      exact mem_queryFold_self _ hown her _
    · have hbne : rectNonneg b := ⟨le_of_lt hw, le_of_lt hh⟩
      obtain ⟨p, hpb, hpe, hpr⟩ :=
        exists_pointIn_three hbne hne hnr hte her htr
      rcases pointIn_quadrant hpb with hq | hq | hq | hq
      · have h1e : intersects c1.qbounds (getBounds el) = true := by
          rw [hb1]; exact intersects_of_pointIn hq hpe
        have h1r : intersects c1.qbounds range = true := by
          rw [hb1]; exact intersects_of_pointIn hq hpr
        refine mem_query_of_mem _ _ (mem_query_of_mem _ _ (mem_query_of_mem _ _ ?_))
        exact ih1 hc1 (f1 h1e) h1e h1r _
      · have h2e : intersects c2.qbounds (getBounds el) = true := by
          rw [hb2]; exact intersects_of_pointIn hq hpe
        have h2r : intersects c2.qbounds range = true := by
          rw [hb2]; exact intersects_of_pointIn hq hpr
        refine mem_query_of_mem _ _ (mem_query_of_mem _ _ ?_)
        exact ih2 hc2 (f2 h2e) h2e h2r _
      · have h3e : intersects c3.qbounds (getBounds el) = true := by
          rw [hb3]; exact intersects_of_pointIn hq hpe
        have h3r : intersects c3.qbounds range = true := by
          rw [hb3]; exact intersects_of_pointIn hq hpr
        refine mem_query_of_mem _ _ ?_
        exact ih3 hc3 (f3 h3e) h3e h3r _
      · have h4e : intersects c4.qbounds (getBounds el) = true := by
          rw [hb4]; exact intersects_of_pointIn hq hpe
        have h4r : intersects c4.qbounds range = true := by
          rw [hb4]; exact intersects_of_pointIn hq hpr
        exact ih4 hc4 (f4 h4e) h4e h4r _

omit [DecidableEq α] in
theorem redistribute_inTree (cap maxL clvl : ℕ)
    (hD : ∀ (t : Quadtree α) (x y : DrawingElement α),
      inTree y (Quadtree.insert cap maxL clvl t x).1 → inTree y t ∨ y = x) :
    ∀ els (c1 c2 c3 c4 : Quadtree α) (y : DrawingElement α),
      ((inTree y (Quadtree.redistribute cap maxL clvl c1 c2 c3 c4 els).1 →
          inTree y c1 ∨ y ∈ els) ∧
       (inTree y (Quadtree.redistribute cap maxL clvl c1 c2 c3 c4 els).2.1 →
          inTree y c2 ∨ y ∈ els) ∧
       (inTree y (Quadtree.redistribute cap maxL clvl c1 c2 c3 c4 els).2.2.1 →
          inTree y c3 ∨ y ∈ els) ∧
       (inTree y (Quadtree.redistribute cap maxL clvl c1 c2 c3 c4 els).2.2.2 →
          inTree y c4 ∨ y ∈ els)) := by
  intro els
  induction els with
  | nil =>
    intro c1 c2 c3 c4 y
    rw [Quadtree.redistribute]
    exact ⟨fun h => Or.inl h, fun h => Or.inl h, fun h => Or.inl h, fun h => Or.inl h⟩
  | cons e rest ih =>
    intro c1 c2 c3 c4 y
    rw [Quadtree.redistribute]
    have hstep : ∀ c : Quadtree α,
        (inTree y (Quadtree.insert cap maxL clvl c e).1 → inTree y c ∨ y ∈ e :: rest) :=
      fun c h => by
        rcases hD c e y h with h' | h'
        · exact Or.inl h'
        · exact Or.inr (List.mem_cons.2 (Or.inl h'))
    have := ih ((Quadtree.insert cap maxL clvl c1 e).1)
      ((Quadtree.insert cap maxL clvl c2 e).1)
      ((Quadtree.insert cap maxL clvl c3 e).1)
      ((Quadtree.insert cap maxL clvl c4 e).1) y
    refine ⟨fun h => ?_, fun h => ?_, fun h => ?_, fun h => ?_⟩
    · rcases this.1 h with h' | h'
      · exact hstep c1 h'
      · exact Or.inr (List.mem_cons.2 (Or.inr h'))
    · rcases this.2.1 h with h' | h'
      · exact hstep c2 h'
      · exact Or.inr (List.mem_cons.2 (Or.inr h'))
    · rcases this.2.2.1 h with h' | h'
      · exact hstep c3 h'
      · exact Or.inr (List.mem_cons.2 (Or.inr h'))
    · rcases this.2.2.2 h with h' | h'
      · exact hstep c4 h'
      · exact Or.inr (List.mem_cons.2 (Or.inr h'))

omit [DecidableEq α] in
theorem insert_inTree_aux (cap maxL : ℕ) :
    ∀ n lvl, maxL - lvl ≤ n → ∀ (t : Quadtree α) (x y : DrawingElement α),
      inTree y (Quadtree.insert cap maxL lvl t x).1 → inTree y t ∨ y = x := by
  intro n
  induction n with
  | zero =>
    intro lvl hn t x y h
    have hlvl : maxL ≤ lvl := by omega
    cases t with
    | leaf b elems =>
      by_cases hI : intersects b (getBounds x) = true
      · rw [Quadtree.insert, if_pos hI, dif_pos (Or.inr hlvl)] at h
        rcases List.mem_append.1 h with h' | h'
        · exact Or.inl h'
        · exact Or.inr (List.mem_singleton.1 h')
      · rw [Quadtree.insert, if_neg hI] at h
        exact Or.inl h
    | divided b elems c1 c2 c3 c4 =>
      by_cases hI : intersects b (getBounds x) = true
      · rw [Quadtree.insert, if_pos hI, dif_pos (Or.inr hlvl)] at h
        rcases h with h' | h'
        · rcases List.mem_append.1 h' with h'' | h''
          · exact Or.inl (Or.inl h'')
          · exact Or.inr (List.mem_singleton.1 h'')
        · exact Or.inl (Or.inr h')
      · rw [Quadtree.insert, if_neg hI] at h
        exact Or.inl h
  | succ n ih =>
    intro lvl hn t x y h
    have hstep : maxL - (lvl + 1) ≤ n := by omega
    cases t with
    | leaf b elems =>
      by_cases hI : intersects b (getBounds x) = true
      · rw [Quadtree.insert, if_pos hI] at h
        by_cases hC : elems.length < cap ∨ maxL ≤ lvl
        · rw [dif_pos hC] at h
          rcases List.mem_append.1 h with h' | h'
          · exact Or.inl h'
          · exact Or.inr (List.mem_singleton.1 h')
        · rw [dif_neg hC] at h
          simp only [inTree] at h
          have hrt := redistribute_inTree cap maxL (lvl + 1)
            (fun t' x' y' h' => ih (lvl + 1) hstep t' x' y' h') elems
            (Quadtree.leaf (quadNW b) []) (Quadtree.leaf (quadNE b) [])
            (Quadtree.leaf (quadSW b) []) (Quadtree.leaf (quadSE b) []) y
          have hleafE : ∀ q : Rect α, inTree y (Quadtree.leaf q ([] : List (DrawingElement α))) → False := by
            intro q hq
            simp only [inTree] at hq
            cases hq
          rcases h with h' | h' | h' | h' | h'
          · cases h'
          · rcases ih (lvl + 1) hstep _ x y h' with h'' | h''
            · rcases hrt.1 h'' with h3 | h3
              · exact absurd h3 (hleafE _)
              · exact Or.inl h3
            · exact Or.inr h''
          · rcases ih (lvl + 1) hstep _ x y h' with h'' | h''
            · rcases hrt.2.1 h'' with h3 | h3
              · exact absurd h3 (hleafE _)
              · exact Or.inl h3
            · exact Or.inr h''
          · rcases ih (lvl + 1) hstep _ x y h' with h'' | h''
            · rcases hrt.2.2.1 h'' with h3 | h3
              · exact absurd h3 (hleafE _)
              · exact Or.inl h3
            · exact Or.inr h''
          · rcases ih (lvl + 1) hstep _ x y h' with h'' | h''
            · rcases hrt.2.2.2 h'' with h3 | h3
              · exact absurd h3 (hleafE _)
              · exact Or.inl h3
            · exact Or.inr h''
      · rw [Quadtree.insert, if_neg hI] at h
        exact Or.inl h
    | divided b elems c1 c2 c3 c4 =>
      by_cases hI : intersects b (getBounds x) = true
      · rw [Quadtree.insert, if_pos hI] at h
        by_cases hC : elems.length < cap ∨ maxL ≤ lvl
        · rw [dif_pos hC] at h
          rcases h with h' | h'
          · rcases List.mem_append.1 h' with h'' | h''
            · exact Or.inl (Or.inl h'')
            · exact Or.inr (List.mem_singleton.1 h'')
          · exact Or.inl (Or.inr h')
        · rw [dif_neg hC] at h
          simp only [inTree] at h
          rcases h with h' | h' | h' | h' | h'
          · exact Or.inl (Or.inl h')
          · rcases ih (lvl + 1) hstep _ x y h' with h'' | h''
            · exact Or.inl (Or.inr (Or.inl h''))
            · exact Or.inr h''
          · rcases ih (lvl + 1) hstep _ x y h' with h'' | h''
            · exact Or.inl (Or.inr (Or.inr (Or.inl h'')))
            · exact Or.inr h''
          · rcases ih (lvl + 1) hstep _ x y h' with h'' | h''
            · exact Or.inl (Or.inr (Or.inr (Or.inr (Or.inl h''))))
            · exact Or.inr h''
          · rcases ih (lvl + 1) hstep _ x y h' with h'' | h''
            · exact Or.inl (Or.inr (Or.inr (Or.inr (Or.inr h''))))
            · exact Or.inr h''
      · rw [Quadtree.insert, if_neg hI] at h
        exact Or.inl h

omit [DecidableEq α] in
/-- Elements held anywhere in the tree after an insertion were either already
there or are the inserted element. -/
theorem insert_inTree (cap maxL lvl : ℕ) (t : Quadtree α) (x y : DrawingElement α)
    (h : inTree y (Quadtree.insert cap maxL lvl t x).1) : inTree y t ∨ y = x :=
  insert_inTree_aux cap maxL (maxL - lvl) lvl le_rfl t x y h

omit [DecidableEq α] in
theorem foldl_insert_wf (cap maxL lvl : ℕ) :
    ∀ (E : List (DrawingElement α)) (t : Quadtree α), qtWF t →
      qtWF (E.foldl (fun acc e => (Quadtree.insert cap maxL lvl acc e).1) t) := by
  intro E
  induction E with
  | nil => intro t h; exact h
  | cons e rest ih =>
    intro t h
    exact ih _ (insert_wf cap maxL lvl t e h)

omit [DecidableEq α] in
theorem foldl_insert_qbounds (cap maxL lvl : ℕ) :
    ∀ (E : List (DrawingElement α)) (t : Quadtree α),
      (E.foldl (fun acc e => (Quadtree.insert cap maxL lvl acc e).1) t).qbounds = t.qbounds := by
  intro E
  induction E with
  | nil => intro t; rfl
  | cons e rest ih =>
    intro t
    rw [List.foldl_cons, ih, insert_qbounds]

omit [DecidableEq α] in
theorem foldl_insert_stored (cap maxL lvl : ℕ) (el : DrawingElement α)
    (hne : rectNonneg (getBounds el)) :
    ∀ (E : List (DrawingElement α)) (t : Quadtree α), qtWF t →
      (storedIn el t ∨ (el ∈ E ∧ intersects t.qbounds (getBounds el) = true)) →
      storedIn el (E.foldl (fun acc e => (Quadtree.insert cap maxL lvl acc e).1) t) := by
  intro E
  induction E with
  | nil =>
    intro t hwf h
    rcases h with h | ⟨hmem, _⟩
    · exact h
    · cases hmem
  | cons e rest ih =>
    intro t hwf h
    rw [List.foldl_cons]
    have hwf' := insert_wf cap maxL lvl t e hwf
    rcases h with h | ⟨hmem, hint⟩
    · exact ih _ hwf' (Or.inl (insert_stored_mono cap maxL lvl t el e hwf hne h))
    · rcases List.mem_cons.1 hmem with heq | hrest
      · subst heq
        exact ih _ hwf' (Or.inl (insert_stored cap maxL lvl t el hwf hne hint).1)
      · refine ih _ hwf' (Or.inr ⟨hrest, ?_⟩)
        rw [insert_qbounds]
        exact hint

omit [DecidableEq α] in
theorem foldl_insert_inTree (cap maxL lvl : ℕ) (y : DrawingElement α) :
    ∀ (E : List (DrawingElement α)) (t : Quadtree α),
      inTree y (E.foldl (fun acc e => (Quadtree.insert cap maxL lvl acc e).1) t) →
      inTree y t ∨ y ∈ E := by
  intro E
  induction E with
  | nil => intro t h; exact Or.inl h
  | cons e rest ih =>
    intro t h
    rw [List.foldl_cons] at h
    rcases ih _ h with h' | h'
    · rcases insert_inTree cap maxL lvl t e y h' with h'' | h''
      · exact Or.inl h''
      · exact Or.inr (List.mem_cons.2 (Or.inl h''))
    · exact Or.inr (List.mem_cons.2 (Or.inr h'))

omit [DecidableEq α] in
theorem intersects_comm_iff {a b : Rect α} :
    intersects a b = true ↔ intersects b a = true := by
  rw [intersects_iff, intersects_iff]
  tauto

/-- Claim C1, counterexample to the claim as stated: the element is
successfully inserted (`insert` returns `true`), its bounds intersect the
query rectangle, yet `query` omits it, because the query rectangle does not
intersect the index's root region and `query` returns early. -/
theorem c1_counterexample :
    (Quadtree.insert 4 10 0 (Quadtree.leaf appRect []) c1ex_el).2 = true ∧
    intersects (getBounds c1ex_el) c1ex_R = true ∧
    c1ex_el ∉
      ((Quadtree.insert 4 10 0 (Quadtree.leaf appRect []) c1ex_el).1.query c1ex_R []) := by
  have h1 : intersects appRect (getBounds c1ex_el) = true := by
    simp only [c1ex_el, getBounds, List.foldl_nil]
    rw [intersects_iff]
    norm_num [appRect]
  have hins : Quadtree.insert 4 10 0 (Quadtree.leaf appRect []) c1ex_el =
      (Quadtree.leaf appRect [c1ex_el], true) := by
    rw [Quadtree.insert, if_pos h1, dif_pos (Or.inl (by decide))]
    simp
  refine ⟨by rw [hins], ?_, ?_⟩
  · simp only [c1ex_el, getBounds, List.foldl_nil]
    rw [intersects_iff]
    norm_num [c1ex_R]
  · rw [hins]
    have hqr : ¬ (intersects appRect c1ex_R = true) := by
      rw [intersects_iff]
      norm_num [appRect, c1ex_R]
    rw [Quadtree.query, if_neg hqr]
    simp

/-- Claim C1 (amended): culling correctness of the spatial index.  For every
element of the inserted list whose bounds have nonnegative extents and
intersect the logical plane (the condition under which `insert` succeeds),
and every query rectangle with nonnegative extents that intersects the
logical plane, if the element's bounds intersect the rectangle then the
element is contained in the query result — across subdivision and
redistribution. -/
theorem c1_culling_amended (E : List (DrawingElement ℚ)) (el : DrawingElement ℚ)
    (R : Rect ℚ) (hmem : el ∈ E) (hne : rectNonneg (getBounds el))
    (hnr : rectNonneg R)
    (hplane : intersects appRect (getBounds el) = true)
    (hplaneR : intersects appRect R = true)
    (hint : intersects (getBounds el) R = true) :
    el ∈ (buildTree E).query R [] := by
  have hwf0 : qtWF (Quadtree.leaf appRect ([] : List (DrawingElement ℚ))) :=
    ⟨by norm_num [appRect], by norm_num [appRect]⟩
  have hwf : qtWF (buildTree E) := foldl_insert_wf 4 10 0 E _ hwf0
  have hqb : (buildTree E).qbounds = appRect := by
    have := foldl_insert_qbounds 4 10 0 E (Quadtree.leaf appRect [])
    rw [qbounds_leaf] at this
    exact this
  have hst : storedIn el (buildTree E) := by
    refine foldl_insert_stored 4 10 0 el hne E _ hwf0 (Or.inr ⟨hmem, ?_⟩)
    rw [qbounds_leaf]
    exact hplane
  refine mem_query_of_storedIn _ hwf hne hnr hst ?_ ?_ hint []
  · rw [hqb]; exact hplane
  · rw [hqb]; exact hplaneR

/-- Witness for the amended claim C1 at a concrete element and rectangle. -/
theorem c1_culling_amended_witness :
    c1w_el ∈ [c1w_el] ∧ rectNonneg (getBounds c1w_el) ∧
    rectNonneg (⟨0, 0, 10, 10⟩ : Rect ℚ) ∧
    intersects appRect (getBounds c1w_el) = true ∧
    intersects appRect (⟨0, 0, 10, 10⟩ : Rect ℚ) = true ∧
    intersects (getBounds c1w_el) (⟨0, 0, 10, 10⟩ : Rect ℚ) = true ∧
    c1w_el ∈ (buildTree [c1w_el]).query ⟨0, 0, 10, 10⟩ [] := by
  have hmem : c1w_el ∈ [c1w_el] := List.mem_singleton.2 rfl
  have hne : rectNonneg (getBounds c1w_el) := by
    simp only [c1w_el, getBounds]
    norm_num [rectNonneg, min_def, max_def]
  have hnr : rectNonneg (⟨0, 0, 10, 10⟩ : Rect ℚ) := by norm_num [rectNonneg]
  have hplane : intersects appRect (getBounds c1w_el) = true := by
    simp only [c1w_el, getBounds]
    rw [intersects_iff]
    norm_num [appRect, min_def, max_def]
  have hplaneR : intersects appRect (⟨0, 0, 10, 10⟩ : Rect ℚ) = true := by
    rw [intersects_iff]
    norm_num [appRect]
  have hint : intersects (getBounds c1w_el) (⟨0, 0, 10, 10⟩ : Rect ℚ) = true := by
    simp only [c1w_el, getBounds]
    rw [intersects_iff]
    norm_num [min_def, max_def]
  exact ⟨hmem, hne, hnr, hplane, hplaneR, hint,
    c1_culling_amended [c1w_el] c1w_el ⟨0, 0, 10, 10⟩ hmem hne hnr hplane hplaneR hint⟩

/-- Claim C2, counterexample to the claim as stated: the round trip through
the index maps the one-element set `[c2ex_el]` to the empty identifier list,
because the element's bounds do not intersect the logical plane and `insert`
rejects it. -/
theorem c2_counterexample :
    ((buildTree [c2ex_el]).query appRect []).map DrawingElement.elemId ≠
      [c2ex_el].map DrawingElement.elemId := by
  have hI : ¬ (intersects appRect (getBounds c2ex_el) = true) := by
    simp only [c2ex_el, getBounds, List.foldl_nil]
    rw [intersects_iff]
    norm_num [appRect]
  have hins : Quadtree.insert 4 10 0 (Quadtree.leaf appRect []) c2ex_el =
      (Quadtree.leaf appRect [], false) := by
    rw [Quadtree.insert, if_neg hI]
  have hbt : buildTree [c2ex_el] = Quadtree.leaf appRect [] := by
    simp only [buildTree, List.foldl_cons, List.foldl_nil, hins]
  have hq : intersects appRect appRect = true := by
    rw [intersects_iff]
    norm_num [appRect]
  rw [hbt, Quadtree.query, if_pos hq]
  simp

/-- Claim C2 (amended): round trip through the spatial index.  For every
element list whose members all have nonnegative-extent bounds intersecting
the logical plane, querying the rebuilt tree with the full plane bounds
returns a duplicate-free list containing exactly the elements of the list. -/
theorem c2_roundtrip_amended (E : List (DrawingElement ℚ))
    (hE : ∀ el ∈ E, rectNonneg (getBounds el) ∧
      intersects appRect (getBounds el) = true) :
    ((buildTree E).query appRect []).Nodup ∧
    ∀ el, el ∈ (buildTree E).query appRect [] ↔ el ∈ E := by
  have hwf0 : qtWF (Quadtree.leaf appRect ([] : List (DrawingElement ℚ))) :=
    ⟨by norm_num [appRect], by norm_num [appRect]⟩
  have hwf : qtWF (buildTree E) := foldl_insert_wf 4 10 0 E _ hwf0
  have hqb : (buildTree E).qbounds = appRect := by
    have := foldl_insert_qbounds 4 10 0 E (Quadtree.leaf appRect [])
    rw [qbounds_leaf] at this
    exact this
  constructor
  · exact nodup_query _ _ List.nodup_nil
  · intro el
    constructor
    · intro h
      rcases mem_query_elim _ _ h with h' | h'
      · cases h'
      · rcases foldl_insert_inTree 4 10 0 el E _ h' with h'' | h''
        · cases h''
        · exact h''
    · intro h
      obtain ⟨hne, hplane⟩ := hE el h
      have hst : storedIn el (buildTree E) := by
        refine foldl_insert_stored 4 10 0 el hne E _ hwf0 (Or.inr ⟨h, ?_⟩)
        rw [qbounds_leaf]
        exact hplane
      have hnr : rectNonneg appRect := by norm_num [rectNonneg, appRect]
      have hrr : intersects appRect appRect = true := by
        rw [intersects_iff]
        norm_num [appRect]
      refine mem_query_of_storedIn _ hwf hne hnr hst ?_ ?_ ?_ []
      · rw [hqb]; exact hplane
      · rw [hqb]; exact hrr
      · exact intersects_comm_iff.1 hplane

/-- Witness for the amended claim C2 at a concrete one-element set. -/
theorem c2_roundtrip_amended_witness :
    ((buildTree [c2w_el]).query appRect []).Nodup ∧
    (c2w_el ∈ (buildTree [c2w_el]).query appRect [] ↔ c2w_el ∈ [c2w_el]) := by
  have h := c2_roundtrip_amended [c2w_el] (by
    intro el hel
    rw [List.mem_singleton] at hel
    subst hel
    constructor
    · simp only [c2w_el, getBounds]
      norm_num [rectNonneg]
    · simp only [c2w_el, getBounds]
      rw [intersects_iff]
      norm_num [appRect])
  exact ⟨h.1, h.2 c2w_el⟩

/-- Claim C3: zoom-at-point fixed point.  From the initial viewport
`{offset: (0,0), scale: 1}`, a pinch centred at screen point `(100, 100)`
whose distance ratio is `2` (scale `1 → 2`) yields — including the offset
clamping step, for any container no wider/taller than `39900` — the
transform `{x: -100, y: -100, scale: 2}`, under which the world point that
was at screen `(100, 100)` still maps to screen `(100, 100)`. -/
theorem c3_zoom_fixed_point (cw ch : ℚ) (hcw : cw ≤ 39900) (hch : ch ≤ 39900) :
    pinchMove 100 1 ⟨100, 100⟩ ⟨0, 0⟩ 200 ⟨100, 100⟩ cw ch = ⟨-100, -100, 2⟩ ∧
    toScreen (pinchMove 100 1 ⟨100, 100⟩ ⟨0, 0⟩ 200 ⟨100, 100⟩ cw ch)
      (toWorld ⟨0, 0, 1⟩ ⟨100, 100⟩) = ⟨100, 100⟩ := by
  have hmain : pinchMove 100 1 ⟨100, 100⟩ ⟨0, 0⟩ 200 ⟨100, 100⟩ cw ch =
      ⟨-100, -100, 2⟩ := by
    simp only [pinchMove]
    have hns : min (max ((1 : ℚ) * (200 / 100)) (1 / 10)) 5 = 2 := by
      norm_num [min_def, max_def]
    rw [hns]
    have hx : ((100 : ℚ) - 0) / 1 = 100 := by norm_num
    rw [hx]
    have hcl : cw - 20000 * 2 < 0 := by linarith
    have hcl' : ch - 20000 * 2 < 0 := by linarith
    rw [if_pos hcl, if_pos hcl']
    have h1 : min ((100 : ℚ) - 100 * 2) 0 = -100 := by norm_num
    rw [h1]
    have h2 : max (cw - 20000 * 2) (-100 : ℚ) = -100 := max_eq_right (by linarith)
    have h3 : max (ch - 20000 * 2) (-100 : ℚ) = -100 := max_eq_right (by linarith)
    rw [h2, h3]
  refine ⟨hmain, ?_⟩
  rw [hmain]
  simp only [toScreen, toWorld]
  norm_num

/-- Witness for claim C3 at a concrete `800 x 600` container. -/
theorem c3_zoom_fixed_point_witness :
    pinchMove 100 1 ⟨100, 100⟩ ⟨0, 0⟩ 200 ⟨100, 100⟩ 800 600 = ⟨-100, -100, 2⟩ ∧
    toScreen (pinchMove 100 1 ⟨100, 100⟩ ⟨0, 0⟩ 200 ⟨100, 100⟩ 800 600)
      (toWorld ⟨0, 0, 1⟩ ⟨100, 100⟩) = ⟨100, 100⟩ :=
  c3_zoom_fixed_point 800 600 (by norm_num) (by norm_num)

/-- Claim C10: whenever the mode changes to any value other than `select`,
the selection becomes empty, and after any nonempty sequence of mode changes
a non-`select` final mode always observes an empty selection. -/
theorem c10_mode_change_clears_selection :
    (∀ (s : SelectionState) (m : Mode), m ≠ Mode.select →
      (applyModeChange s m).selectedIds = []) ∧
    (∀ (s0 : SelectionState) (ms : List Mode), ms ≠ [] →
      (ms.foldl applyModeChange s0).mode ≠ Mode.select →
      (ms.foldl applyModeChange s0).selectedIds = []) := by
  constructor
  · intro s m hm
    simp only [applyModeChange, if_pos hm]
  · intro s0 ms hne hmode
    rcases List.eq_nil_or_concat ms with rfl | ⟨ms', m', rfl⟩
    · exact absurd rfl hne
    · rw [List.concat_eq_append, List.foldl_append, List.foldl_cons,
        List.foldl_nil] at hmode ⊢
      have hm : m' ≠ Mode.select := by
        intro h
        apply hmode
        simp [applyModeChange, h]
      simp only [applyModeChange, if_pos hm]

/-- Witness for claim C10: switching from `select` (with a selected element)
to `pen` empties the selection; so does the two-step sequence
`[select, eraser]`. -/
theorem c10_mode_change_clears_selection_witness :
    (applyModeChange ⟨Mode.select, ["a"]⟩ Mode.pen).selectedIds = [] ∧
    (([Mode.select, Mode.eraser].foldl applyModeChange
        ⟨Mode.select, ["a"]⟩).selectedIds = []) := by
  constructor
  · exact c10_mode_change_clears_selection.1 ⟨Mode.select, ["a"]⟩ Mode.pen (by decide)
  · exact c10_mode_change_clears_selection.2 ⟨Mode.select, ["a"]⟩
      [Mode.select, Mode.eraser] (by decide) (by decide)

/-- Claim C6, counterexample to the claim as stated: selecting a single
horizontal line gives an original selection box of height `0`, so the scale
computation's y divisor (`oldBounds.h`, see `mapY`) is zero — the min-1
clamp applies only to the target box, never to the original one.  In this
field model division by zero collapses `mapY` to the constant `newB.y`
(both endpoints of the original box land on `3`); in the JavaScript source
the same inputs produce `NaN`/`Infinity` coordinates. -/
theorem c6_counterexample :
    getSelectionBounds [c6ex_line] = some ⟨0, 0, 10, 0⟩ ∧
    (SelBounds.mk (0 : ℚ) 0 10 0).h = 0 ∧
    mapY (⟨0, 0, 10, 0⟩ : SelBounds ℚ) ⟨0, 3, 10, 5⟩ 0 = 3 ∧
    mapY (⟨0, 0, 10, 0⟩ : SelBounds ℚ) ⟨0, 3, 10, 5⟩ 7 = 3 := by
  refine ⟨?_, rfl, ?_, ?_⟩
  · simp only [getSelectionBounds, selMinMax, mergeMinMax, c6ex_line,
      List.foldl_cons, List.foldl_nil, List.length_cons, List.length_nil]
    norm_num [min_def, max_def]
  · simp only [mapY]
    norm_num
  · simp only [mapY]
    norm_num

/-- Claim C6 (amended): the target box computed by the scale branch always
has width and height at least `1` (the min-1 clamp), and whenever the
selection's original box has nonzero width and height, the per-axis maps
used by `scaleElement` are genuine linear correspondences carrying the
original box onto the target box, with nonzero divisors. -/
theorem c6_resize_amended (tm : Handle) (dx dy : ℚ) (center : Pt ℚ)
    (sw sh : ℚ) (oldB newB : SelBounds ℚ)
    (hw : oldB.w ≠ 0) (hh : oldB.h ≠ 0) :
    (1 ≤ (computeNewBounds tm dx dy center sw sh).w ∧
     1 ≤ (computeNewBounds tm dx dy center sw sh).h) ∧
    (mapX oldB newB oldB.x = newB.x ∧
     mapX oldB newB (oldB.x + oldB.w) = newB.x + newB.w ∧
     mapY oldB newB oldB.y = newB.y ∧
     mapY oldB newB (oldB.y + oldB.h) = newB.y + newB.h) := by
  have hclamp : ∀ w : ℚ, 1 ≤ (if w < 1 then (1 : ℚ) else w) := by
    intro w
    split
    · exact le_refl 1
    · linarith [not_lt.1 (by assumption)]
  constructor
  · cases tm <;> exact ⟨hclamp _, hclamp _⟩
  · refine ⟨?_, ?_, ?_, ?_⟩ <;> simp only [mapX, mapY]
    · ring
    · field_simp
    · ring
    · field_simp

/-- Witness for the amended claim C6 at a concrete degenerate drag (a large
negative delta on the SE handle) and a concrete nondegenerate original
box. -/
theorem c6_resize_amended_witness :
    ((1 : ℚ) ≤ (computeNewBounds .se (-100) (-100) (⟨0, 0⟩ : Pt ℚ) 10 10).w ∧
     (1 : ℚ) ≤ (computeNewBounds .se (-100) (-100) (⟨0, 0⟩ : Pt ℚ) 10 10).h) ∧
    (mapX ⟨0, 0, 10, 10⟩ ⟨0, 0, 4, 5⟩ (0 : ℚ) = 0 ∧
     mapX ⟨0, 0, 10, 10⟩ ⟨0, 0, 4, 5⟩ ((0 : ℚ) + 10) = 0 + 4 ∧
     mapY ⟨0, 0, 10, 10⟩ ⟨0, 0, 4, 5⟩ (0 : ℚ) = 0 ∧
     mapY ⟨0, 0, 10, 10⟩ ⟨0, 0, 4, 5⟩ ((0 : ℚ) + 10) = 0 + 5) :=
  c6_resize_amended .se (-100) (-100) ⟨0, 0⟩ 10 10 ⟨0, 0, 10, 10⟩ ⟨0, 0, 4, 5⟩
    (by norm_num) (by norm_num)

/-- Shared evaluation: the Scenario C eraser of width 20 (threshold `20/2`)
hits the scenario stroke element. -/
theorem scenario_eraser_hit :
    isStrokeIntersectingElement scEraserPts scStrokeEl (20 / 2) = true := by
  simp only [isStrokeIntersectingElement, scEraserPts, sampleStep3,
    List.any_cons, List.any_nil, Bool.or_false]
  simp only [isPointNearElement, scStrokeEl, List.foldl_cons, List.foldl_nil,
    List.zip_cons_cons, List.zip_nil_right, List.any_cons, List.any_nil]
  rw [if_neg (by norm_num [min_def, max_def])]
  simp only [Bool.or_false, decide_eq_true_eq]
  simp only [distanceToSegment]
  rw [if_neg (by norm_num)]
  norm_num [min_def, max_def]

/-- Shared evaluation: committing the Scenario C eraser stroke over the
one-element set removes the stroke element. -/
theorem scenario_eraser_commit (penWidth : ℝ) (autoShape : Bool) (newId : String) :
    commitStroke Mode.eraser 20 penWidth autoShape [scStrokeEl] scEraserPts newId =
      [] := by
  unfold commitStroke
  rw [if_neg (by simp [scEraserPts]), if_pos rfl]
  simp [List.filter_cons, scenario_eraser_hit]

/-- Claim C4, counterexample to the claim as stated: there is no snapshot
history — the Undo button merely drops the last element of the array — so
undoing right after an eraser commit does not restore the erased element:
from the set `[scStrokeEl]`, erasing and then undoing yields `[]`. -/
theorem c4_counterexample :
    undoElements (commitStroke Mode.eraser 20 3 false [scStrokeEl] scEraserPts "n1") ≠
      [scStrokeEl] := by
  rw [scenario_eraser_commit]
  simp [undoElements]

/-- Claim C4 (amended): undo drops the last element of the element array;
since a pen commit appends exactly one element, undoing immediately after a
pen commit of a nonempty stroke restores the pre-commit element list
(whatever the auto-shape toggle), but there is no snapshot stack and eraser
commits are not restored (see the counterexample). -/
theorem c4_undo_amended (eraserWidth penWidth : ℝ) (autoShape : Bool)
    (es : List (DrawingElement ℝ)) (stroke : List (Pt ℝ)) (hs : stroke ≠ [])
    (newId : String) :
    undoElements (commitStroke Mode.pen eraserWidth penWidth autoShape es stroke newId) =
      es := by
  unfold commitStroke undoElements
  rw [if_neg (by rw [List.length_eq_zero]; exact hs), if_neg (by simp)]
  simp [List.dropLast_concat]

/-- Witness for the amended claim C4: pen-committing a one-point stroke onto
the empty set, then undoing, returns the empty set. -/
theorem c4_undo_amended_witness :
    undoElements (commitStroke Mode.pen 20 3 false [] [⟨1, 2⟩] "n2") = [] :=
  c4_undo_amended 20 3 false [] [⟨1, 2⟩] (by simp) "n2"

/-- Claim C5: rotating an axis-aligned rectangle yields a `stroke` element
(not a `rect`) whose 5-point polygon is exactly the four corners plus the
closing point, each rotated by the analytic formula about the selection
center, with the identifier (and color/width/link) unchanged; and stroke
geometry is rotated pointwise by the same analytic formula. -/
theorem c5_rotation_rect_to_stroke (x y w h : ℝ) (color : String) (sw : ℝ)
    (i : String) (l : Option String) (center : Pt ℝ) (angle : ℝ) :
    rotateElement (.rect x y w h color sw i l) center angle =
      .stroke ((([⟨x, y⟩, ⟨x + w, y⟩, ⟨x + w, y + h⟩, ⟨x, y + h⟩, ⟨x, y⟩] :
        List (Pt ℝ)).map (specRotate center angle))) color sw i l ∧
    (rotateElement (.rect x y w h color sw i l) center angle).elemId = i ∧
    ∀ (pts : List (Pt ℝ)) (c' : String) (w' : ℝ) (i' : String)
      (l' : Option String),
      rotateElement (.stroke pts c' w' i' l') center angle =
        .stroke (pts.map (specRotate center angle)) c' w' i' l' :=
  ⟨rfl, rfl, fun _ _ _ _ _ => rfl⟩

/-- Claim C7: an eraser commit keeps exactly the elements that the sampled
eraser stroke does not intersect within the threshold `eraserWidth / 2`
(survivors are kept unchanged, since the commit is a filter of the previous
set); and in the concrete scenario, the width-2 stroke through (0,0)–(10,0)
is removed by the width-20 eraser stroke through (5,0). -/
theorem c7_eraser_commit (eraserWidth penWidth : ℝ) (autoShape : Bool)
    (es : List (DrawingElement ℝ)) (stroke : List (Pt ℝ)) (newId : String)
    (penWidth' : ℝ) (autoShape' : Bool) (newId' : String) :
    (∀ el, el ∈ commitStroke Mode.eraser eraserWidth penWidth autoShape es stroke newId ↔
      el ∈ es ∧ isStrokeIntersectingElement stroke el (eraserWidth / 2) = false) ∧
    commitStroke Mode.eraser 20 penWidth' autoShape' [scStrokeEl] scEraserPts newId' =
      [] := by
  constructor
  · intro el
    unfold commitStroke
    by_cases hl : stroke.length = 0
    · rw [if_pos hl]
      have hnil : stroke = [] := List.length_eq_zero.1 hl
      subst hnil
      simp [isStrokeIntersectingElement, sampleStep3]
    · rw [if_neg hl, if_pos rfl]
      simp [List.mem_filter]
  · exact scenario_eraser_commit penWidth' autoShape' newId'

/-- Claim C9, counterexample to the claim as stated: a zero-radius circle IS
hit — the ring test `|d - radius| < threshold + width/2` degenerates to a
point test at the center, which the point (0,0) passes. -/
theorem c9_counterexample :
    isPointNearElement ⟨0, 0⟩ c9ex_circle 10 = true := by
  simp only [isPointNearElement, c9ex_circle, decide_eq_true_eq]
  norm_num

/-- Claim C9 (amended): hit-testing a zero-length stroke (fewer than two
points) returns `false` for every point and threshold, and raises no error;
but zero-radius circles and zero-area rectangles degenerate to point tests
and ARE hit near their center/corner (see the counterexample). -/
theorem c9_degenerate_amended (p : Pt ℝ) (pts : List (Pt ℝ)) (c : String)
    (w t : ℝ) (i : String) (l : Option String) (hlen : pts.length < 2) :
    isPointNearElement p (.stroke pts c w i l) t = false := by
  match pts, hlen with
  | [], _ => rfl
  | [q], _ =>
    simp only [isPointNearElement, List.zip_nil_right, List.any_nil, ite_self]

/-- Witness for the amended claim C9 at the empty stroke. -/
theorem c9_degenerate_amended_witness :
    isPointNearElement ⟨0, 0⟩ (.stroke [] "black" 2 "s0" none) 10 = false :=
  c9_degenerate_amended ⟨0, 0⟩ [] "black" 2 10 "s0" none (by decide)

/-! ### Claim C8: the shape recognizer -/

theorem sqrt_four : Real.sqrt 4 = 2 := by
  rw [show (4 : ℝ) = 2 ^ 2 by norm_num, Real.sqrt_sq (by norm_num : (0 : ℝ) ≤ 2)]

theorem sqrt_nine : Real.sqrt 9 = 3 := by
  rw [show (9 : ℝ) = 3 ^ 2 by norm_num, Real.sqrt_sq (by norm_num : (0 : ℝ) ≤ 3)]

theorem sqrt_twentyfive : Real.sqrt 25 = 5 := by
  rw [show (25 : ℝ) = 5 ^ 2 by norm_num, Real.sqrt_sq (by norm_num : (0 : ℝ) ≤ 5)]

theorem sqrt_hundred : Real.sqrt 100 = 10 := by
  rw [show (100 : ℝ) = 10 ^ 2 by norm_num, Real.sqrt_sq (by norm_num : (0 : ℝ) ≤ 10)]

/-- Claim C8 (amended): for a finished stroke of at least 10 samples that is
not classified as a line and is nearly closed, the recognizer returns the
bounding-box circle when the aspect ratio lies STRICTLY between 0.8 and 1.2,
and the bounding-box rectangle otherwise (the source tests
`ratio > 0.8 && ratio < 1.2`, an open interval, not the closed one). -/
theorem c8_recognizer_amended (points : List (Pt ℝ))
    (hlen : 10 ≤ points.length)
    (hline : ¬ (distance (pathHead points) (pathLast points) / pathLen points >
      93 / 100))
    (hclosed : distance (pathHead points) (pathLast points) <
        pathLen points * (2 / 10) ∨
      distance (pathHead points) (pathLast points) < 40) :
    (((pathMaxX points - pathMinX points) /
        (pathMaxY points - pathMinY points) > 8 / 10 ∧
      (pathMaxX points - pathMinX points) /
        (pathMaxY points - pathMinY points) < 12 / 10) →
      recognizeShape points = some (.circleR
        (pathMinX points + (pathMaxX points - pathMinX points) / 2)
        (pathMinY points + (pathMaxY points - pathMinY points) / 2)
        ((pathMaxX points - pathMinX points +
          (pathMaxY points - pathMinY points)) / 4))) ∧
    ((¬ ((pathMaxX points - pathMinX points) /
          (pathMaxY points - pathMinY points) > 8 / 10 ∧
        (pathMaxX points - pathMinX points) /
          (pathMaxY points - pathMinY points) < 12 / 10)) →
      recognizeShape points = some (.rectR (pathMinX points) (pathMinY points)
        (pathMaxX points - pathMinX points)
        (pathMaxY points - pathMinY points))) := by
  have hKey : recognizeShape points =
      if (pathMaxX points - pathMinX points) /
          (pathMaxY points - pathMinY points) > 8 / 10 ∧
        (pathMaxX points - pathMinX points) /
          (pathMaxY points - pathMinY points) < 12 / 10 then
        some (.circleR
          (pathMinX points + (pathMaxX points - pathMinX points) / 2)
          (pathMinY points + (pathMaxY points - pathMinY points) / 2)
          ((pathMaxX points - pathMinX points +
            (pathMaxY points - pathMinY points)) / 4))
      else
        some (.rectR (pathMinX points) (pathMinY points)
          (pathMaxX points - pathMinX points)
          (pathMaxY points - pathMinY points)) := by
    simp only [recognizeShape]
    rw [if_neg (by omega), if_neg hline, if_pos hclosed]
  constructor
  · intro hr
    rw [hKey, if_pos hr]
  · intro hr
    rw [hKey, if_neg hr]

/-- Claim C8, counterexample to the claim as stated: this stroke satisfies
every premiss of the circle case under the claim's CLOSED interval
`[0.8, 1.2]` — at least 10 samples, not a line, nearly closed, aspect ratio
exactly `1.2` — yet the source classifies it as a rectangle, because the
code's test is the strict `ratio > 0.8 && ratio < 1.2`. -/
theorem c8_counterexample :
    10 ≤ c8ex_pts.length ∧
    ¬ (distance (pathHead c8ex_pts) (pathLast c8ex_pts) / pathLen c8ex_pts >
      93 / 100) ∧
    (distance (pathHead c8ex_pts) (pathLast c8ex_pts) <
        pathLen c8ex_pts * (2 / 10) ∨
      distance (pathHead c8ex_pts) (pathLast c8ex_pts) < 40) ∧
    (pathMaxX c8ex_pts - pathMinX c8ex_pts) /
      (pathMaxY c8ex_pts - pathMinY c8ex_pts) = 12 / 10 ∧
    recognizeShape c8ex_pts = some (.rectR 0 0 12 10) := by
  have hd : distance (pathHead c8ex_pts) (pathLast c8ex_pts) = 0 := by
    simp only [c8ex_pts, pathHead, pathLast, List.foldl_cons, List.foldl_nil,
      distance]
    norm_num
  have hl : pathLen c8ex_pts = 44 := by
    simp only [c8ex_pts, pathLen, List.tail_cons, List.zip_cons_cons,
      List.zip_nil_right, List.foldl_cons, List.foldl_nil, distance]
    norm_num [sqrt_nine, sqrt_hundred]
  have hminx : pathMinX c8ex_pts = 0 := by
    simp only [c8ex_pts, pathMinX, List.foldl_cons, List.foldl_nil]
    norm_num [min_def]
  have hmaxx : pathMaxX c8ex_pts = 12 := by
    simp only [c8ex_pts, pathMaxX, List.foldl_cons, List.foldl_nil]
    norm_num [max_def]
  have hminy : pathMinY c8ex_pts = 0 := by
    simp only [c8ex_pts, pathMinY, List.foldl_cons, List.foldl_nil]
    norm_num [min_def]
  have hmaxy : pathMaxY c8ex_pts = 10 := by
    simp only [c8ex_pts, pathMaxY, List.foldl_cons, List.foldl_nil]
    norm_num [max_def]
  refine ⟨by norm_num [c8ex_pts], ?_, ?_, ?_, ?_⟩
  · rw [hd, hl]
    norm_num
  · rw [hd, hl]
    left
    norm_num
  · rw [hminx, hmaxx, hminy, hmaxy]
    norm_num
  · simp only [recognizeShape]
    rw [if_neg (by norm_num [c8ex_pts]), hd, hl, hminx, hmaxx, hminy, hmaxy]
    rw [if_neg (by norm_num), if_pos (Or.inr (by norm_num)),
      if_neg (by norm_num)]
    norm_num

/-- Witness for the amended claim C8: the square loop is recognized as the
circle centred at (5,5) with radius 5. -/
theorem c8_recognizer_amended_witness :
    recognizeShape c8w_pts = some (.circleR 5 5 5) := by
  have hd : distance (pathHead c8w_pts) (pathLast c8w_pts) = 0 := by
    simp only [c8w_pts, pathHead, pathLast, List.foldl_cons, List.foldl_nil,
      distance]
    norm_num
  have hl : pathLen c8w_pts = 40 := by
    simp only [c8w_pts, pathLen, List.tail_cons, List.zip_cons_cons,
      List.zip_nil_right, List.foldl_cons, List.foldl_nil, distance]
    norm_num [sqrt_twentyfive, sqrt_nine, sqrt_four]
  have hminx : pathMinX c8w_pts = 0 := by
    simp only [c8w_pts, pathMinX, List.foldl_cons, List.foldl_nil]
    norm_num [min_def]
  have hmaxx : pathMaxX c8w_pts = 10 := by
    simp only [c8w_pts, pathMaxX, List.foldl_cons, List.foldl_nil]
    norm_num [max_def]
  have hminy : pathMinY c8w_pts = 0 := by
    simp only [c8w_pts, pathMinY, List.foldl_cons, List.foldl_nil]
    norm_num [min_def]
  have hmaxy : pathMaxY c8w_pts = 10 := by
    simp only [c8w_pts, pathMaxY, List.foldl_cons, List.foldl_nil]
    norm_num [max_def]
  have h := c8_recognizer_amended c8w_pts (by norm_num [c8w_pts])
    (by rw [hd, hl]; norm_num) (by rw [hd, hl]; left; norm_num)
  have h2 := h.1 (by rw [hminx, hmaxx, hminy, hmaxy]; norm_num)
  rw [h2, hminx, hmaxx, hminy, hmaxy]
  norm_num

end AppMemo
